import Mathlib

/-!
StringSearch: KMP occurrence counting over a partitioned corpus.

Shallow embedding of `src/StringSearch/main.cpp`.

* `get_next`, `kmpsearch`: the failure table and the scan (lines 83-108).
* `blockBounds`, `spawnLoop`, `mainBlocks`: the block computation of `main` (lines 151-163).
* `scanBlock`, `mergeBlock`, `searchInBlock`: the worker (lines 111-135).
* `runThreads`, `mainResult`, `report`: the rest of `main` (lines 154-170).
* `mainProgram`: the whole of `main`, with the two inputs that may be unavailable.
* `get_nextChecked`, `kmpsearchChecked`: the scan with every index checked.
* `fallbackWF`: the inner loop by well-founded recursion; `kmpsearch32`: the scan with
  32-bit counters.

Conventions of the embedding.

* A `std::string` and the mapped corpus are lists of bytes; only equality of bytes is used.
* A memory access outside its object is a `Fault.outOfBounds`; every function that indexes
  returns `Except Fault _`, so that "returns a value" is a statement, not an assumption.
* The inner `while` loops get fuel `j + 1`; running out of it is `Fault.outOfFuel`.
* The scan exists twice. `kmpsearch32 incWrap` is the scan of the program: `i`, `j` and
  `count` are 32-bit `int`s in wrap-around arithmetic, compared with `size_t` values as
  the source does; `scanBlock32`, `mainResult32` and `rangeCounts32` are the worker and
  `main` on it. `kmpsearch` is the same scan with unbounded integers, with `scanBlock`,
  `mainResult` and `rangeCounts` on it; it agrees with the program on every slice shorter
  than `2^31` bytes and is what the statements about concrete small inputs evaluate.
  The counting statements that range over every corpus are made on the 32-bit scan.
* Offsets into the corpus are unbounded naturals. Clock readings are narrowed to 32 bits
  where the source stores them in an `int`, and the reported duration is their 32-bit
  difference.
* A `std::map<std::string, int>` is a function from keys to optional values; `operator[]`
  reads an absent key as 0.
-/

namespace StringSearch

/-! ## Data model -/

/-- A `char` of the corpus or of a pattern. -/
abbrev Byte := UInt8

/-- Ways in which the embedded program can fail to produce a value. -/
inductive Fault where
  | outOfBounds
  | outOfFuel
  | divideByZero
  | overflow
deriving DecidableEq, Repr

instance instDecidableEqExcept {ε α : Type} [DecidableEq ε] [DecidableEq α] :
    DecidableEq (Except ε α)
  | .ok a, .ok b =>
    if h : a = b then isTrue (by rw [h]) else isFalse (by intro h1; cases h1; exact h rfl)
  | .error a, .error b =>
    if h : a = b then isTrue (by rw [h]) else isFalse (by intro h1; cases h1; exact h rfl)
  | .ok _, .error _ => isFalse (by intro h; cases h)
  | .error _, .ok _ => isFalse (by intro h; cases h)

/-- The read `pattern[k]` of a `std::string`: the character at `k`, the terminating `'\0'`
at `k = length`, and out of bounds beyond. -/
def strAt (s : List Byte) (k : Nat) : Except Fault Byte :=
  match s[k]? with
  | some c => .ok c
  | none => if k = s.length then .ok 0 else .error .outOfBounds

/-- The read `next[k]` of a `std::vector<int>`. -/
def vecAt (v : List Nat) (k : Nat) : Except Fault Nat :=
  match v[k]? with
  | some x => .ok x
  | none => .error .outOfBounds

/-- The read `next[j - 1]` with `j` an `int`: at `j = 0` the index is `-1`, out of bounds. -/
def vecAtPred (v : List Nat) (j : Nat) : Except Fault Nat :=
  if j = 0 then .error .outOfBounds else vecAt v (j - 1)

/-- The read `data[i]` through the raw pointer `data`, whose object is the list `data`. -/
def bufAt (data : List Byte) (i : Nat) : Except Fault Byte :=
  match data[i]? with
  | some c => .ok c
  | none => .error .outOfBounds

/-! ## Failure table and scan (lines 83-108) -/

/-- The loop `while (j > 0 && pattern[j] != c) j = next[j - 1];` shared by `get_next`
(with `c = pattern[i]`) and `kmpsearch` (with `c = data[i]`). The first argument is fuel. -/
def fallback (next : List Nat) (pattern : List Byte) (c : Byte) : Nat → Nat → Except Fault Nat
  | 0, _ => .error .outOfFuel
  | fuel + 1, j =>
    if 0 < j then
      match strAt pattern j with
      | .error e => .error e
      | .ok pj =>
        if pj ≠ c then
          match vecAtPred next j with
          | .error e => .error e
          | .ok j1 => fallback next pattern c fuel j1
        else .ok j
    else .ok j

/-- The `for` loop of `get_next` (lines 86-92); `steps` is the number of iterations left. -/
def get_next_loop (pattern : List Byte) : Nat → Nat → Nat → List Nat → Except Fault (List Nat)
  | 0, _, _, next => .ok next
  | steps + 1, i, j, next =>
    match strAt pattern i with
    | .error e => .error e
    | .ok pi =>
      match fallback next pattern pi (j + 1) j with
      | .error e => .error e
      | .ok j1 =>
        match strAt pattern j1 with
        | .error e => .error e
        | .ok pj =>
          let j2 := if pi = pj then j1 + 1 else j1
          get_next_loop pattern steps (i + 1) j2 (next ++ [j2])

/-- The function `get_next` (lines 83-94): `i` runs from 1 while `i < pattern.length()`. -/
def get_next (pattern : List Byte) : Except Fault (List Nat) :=
  get_next_loop pattern (pattern.length - 1) 1 0 [0]

/-- The `for` loop of `kmpsearch` (lines 99-106) with `i`, `j` and `count` as unbounded
integers; `steps` is the number of iterations left. The loop of the program, whose three
variables are 32-bit `int`s, is `kmpsearch_loop32`; the two agree on slices shorter than
`2^31` bytes (`kmpsearch_loop32_eq`) and differ beyond (`kmpsearch_loop32_wrap`). -/
def kmpsearch_loop (data : List Byte) (pattern : List Byte) (next : List Nat) :
    Nat → Nat → Nat → Nat → Except Fault Nat
  | 0, _, _, count => .ok count
  | steps + 1, i, j, count =>
    match bufAt data i with
    | .error e => .error e
    | .ok c =>
      match fallback next pattern c (j + 1) j with
      | .error e => .error e
      | .ok j1 =>
        match strAt pattern j1 with
        | .error e => .error e
        | .ok pj =>
          let j2 := if c = pj then j1 + 1 else j1
          if j2 = pattern.length then
            match vecAtPred next j2 with
            | .error e => .error e
            | .ok j3 => kmpsearch_loop data pattern next steps (i + 1) j3 (count + 1)
          else kmpsearch_loop data pattern next steps (i + 1) j2 count

/-- The function `kmpsearch` (lines 96-108) with unbounded integers: `data` is the object
the pointer points into, `datalen` the number of bytes the loop reads. The function of the
program, with 32-bit `int`s, is `kmpsearch32 incWrap`. -/
def kmpsearch (data : List Byte) (datalen : Nat) (pattern : List Byte) : Except Fault Nat :=
  match get_next pattern with
  | .error e => .error e
  | .ok next => kmpsearch_loop data pattern next datalen 0 0 0

/-! ## Block computation of `main` (lines 151-163) -/

/-- The constant `overlapsize` of line 152. -/
def overlapsize : Nat := 50

/-- The pair `(start, end)` of lines 158-159 for thread `i`, with
`blockSize = size / threadcount` of line 153 (`end` is written `stop`). -/
def blockBounds (size threadcount overlap i : Nat) : Nat × Nat :=
  let blockSize := size / threadcount
  let start := i * blockSize
  let stop := if i = threadcount - 1 then size else (i + 1) * blockSize + overlap
  (start, stop)

/-- The loop of lines 157-163, recording the range each `emplace_back` hands to its thread;
`steps` is the number of iterations left. -/
def spawnLoop (size threadcount overlap : Nat) : Nat → Nat → List (Nat × Nat) → List (Nat × Nat)
  | 0, _, threads => threads
  | steps + 1, i, threads =>
    spawnLoop size threadcount overlap steps (i + 1)
      (threads ++ [blockBounds size threadcount overlap i])

/-- The ranges `main` hands to its `threadcount` workers, in thread order. -/
def mainBlocks (size threadcount overlap : Nat) : List (Nat × Nat) :=
  spawnLoop size threadcount overlap threadcount 0 []

/-! ## Results and the worker (lines 15-19 and 111-135) -/

/-- A `std::map<std::string, int>`. -/
abbrev StrMap := List Byte → Option Int

/-- The empty map. -/
def StrMap.empty : StrMap := fun _ => none

/-- The value `m[k]`: an absent key is value-initialised to 0. -/
def StrMap.get (m : StrMap) (k : List Byte) : Int := (m k).getD 0

/-- The assignment `m[k] = v`. -/
def StrMap.set (m : StrMap) (k : List Byte) (v : Int) : StrMap :=
  fun k1 => if k1 = k then some v else m k1

/-- The struct `SearchResult` (lines 15-19). -/
structure SearchResult where
  keywordCounts : StrMap
  start_time : StrMap
  end_time : StrMap

/-- The three local maps of `searchInBlock` (lines 112-114). -/
structure BlockResult where
  blockcounts : StrMap
  st : StrMap
  et : StrMap

/-- A default-constructed `SearchResult` (line 154). -/
def SearchResult.empty : SearchResult := ⟨StrMap.empty, StrMap.empty, StrMap.empty⟩

/-- The three local maps as declared, before the scan. -/
def BlockResult.empty : BlockResult := ⟨StrMap.empty, StrMap.empty, StrMap.empty⟩

/-- Narrowing of a 64-bit millisecond count to the 32-bit `int` stored in the maps. -/
def toInt32 (x : Int) : Int := (x + 2 ^ 31) % 2 ^ 32 - 2 ^ 31

/-- The scan loop of `searchInBlock` (lines 116-125). `clock t` is the `t`-th reading of
`system_clock::now()` in milliseconds since the epoch taken by this thread. The slice is
`data + start` with length `end - start`; `main` never passes `start > end`
(`mainBlocks_start_le_stop`), so the subtraction does not wrap. -/
def scanBlock (data : List Byte) (start stop : Nat) (clock : Nat → Int) :
    List (List Byte) → Nat → BlockResult → Except Fault BlockResult
  | [], _, b => .ok b
  | keyword :: rest, tick, b =>
    let stime := clock tick
    match kmpsearch (data.drop start) (stop - start) keyword with
    | .error e => .error e
    | .ok n =>
      let etime := clock (tick + 1)
      scanBlock data start stop clock rest (tick + 2)
        { blockcounts := b.blockcounts.set keyword (n : Int)
          st := b.st.set keyword (toInt32 stime)
          et := b.et.set keyword (toInt32 etime) }

/-- One iteration of the merge loop (lines 129-133) for `keyword`. -/
def mergeKeyword (b : BlockResult) (keyword : List Byte) (result : SearchResult) :
    SearchResult :=
  { keywordCounts :=
      result.keywordCounts.set keyword
        (result.keywordCounts.get keyword + b.blockcounts.get keyword)
    start_time :=
      if result.start_time.get keyword = 0 then
        result.start_time.set keyword (b.st.get keyword)
      else
        result.start_time.set keyword (min (result.start_time.get keyword) (b.st.get keyword))
    end_time :=
      if result.end_time.get keyword = 0 then
        result.end_time.set keyword (b.et.get keyword)
      else
        result.end_time.set keyword (max (result.end_time.get keyword) (b.et.get keyword)) }

/-- The merge step of `searchInBlock` (lines 127-134), run under the lock `resultmtx`. -/
def mergeBlock (b : BlockResult) : List (List Byte) → SearchResult → SearchResult
  | [], result => result
  | keyword :: rest, result => mergeBlock b rest (mergeKeyword b keyword result)

/-- The function `searchInBlock` (lines 111-135): scan, then merge into `result`. -/
def searchInBlock (data : List Byte) (start stop : Nat) (keywords : List (List Byte))
    (result : SearchResult) (clock : Nat → Int) : Except Fault SearchResult :=
  match scanBlock data start stop clock keywords 0 BlockResult.empty with
  | .error e => .error e
  | .ok b => .ok (mergeBlock b keywords result)

/-! ## The rest of `main` (lines 154-170) -/

/-- The workers of lines 157-165. Each merge runs under `resultmtx`, so a run is a
sequence of whole merges; this is the sequence in thread order. `clock t` is the clock of
thread `t`. -/
def runThreads (data : List Byte) (keywords : List (List Byte)) (clock : Nat → Nat → Int) :
    List (Nat × Nat) → Nat → SearchResult → Except Fault SearchResult
  | [], _, result => .ok result
  | (start, stop) :: rest, t, result =>
    match searchInBlock data start stop keywords result (clock t) with
    | .error e => .error e
    | .ok r => runThreads data keywords clock rest (t + 1) r

/-- Lines 151-165 of `main` on a mapped corpus `data` and a keyword list, with `threadcount`
the value of `hardware_concurrency()`: the `SearchResult` after all threads have joined. -/
def mainResult (data : List Byte) (keywords : List (List Byte)) (threadcount : Nat)
    (clock : Nat → Nat → Int) : Except Fault SearchResult :=
  if threadcount = 0 then .error .divideByZero
  else
    runThreads data keywords clock (mainBlocks data.length threadcount overlapsize) 0
      SearchResult.empty

/-- The `int` subtraction `result.end_time[kw] - result.start_time[kw]` of lines 169 and
174, in 32-bit wrap-around arithmetic. -/
def duration (result : SearchResult) (kw : List Byte) : Int :=
  toInt32 (result.end_time.get kw - result.start_time.get kw)

/-- The report of lines 166-170: for each keyword its count and its duration. -/
def report (result : SearchResult) (keywords : List (List Byte)) :
    List (List Byte × Int × Int) :=
  keywords.map fun kw => (kw, result.keywordCounts.get kw, duration result kw)

/-! ## Specification vocabulary -/

/-- The pattern `P` occurs in `T` at offset `s`: `s + len P ≤ len T` and
`T[s .. s + len P) = P`. -/
def occursAt (T P : List Byte) (s : Nat) : Prop :=
  s + P.length ≤ T.length ∧ (T.drop s).take P.length = P

instance instDecidableOccursAt (T P : List Byte) (s : Nat) : Decidable (occursAt T P s) := by
  unfold occursAt; infer_instance

/-- The number of offsets at which `P` occurs in `T`, overlapping occurrences included. -/
def occurrences (T P : List Byte) : Nat :=
  ((List.range (T.length + 1)).filter (fun s => occursAt T P s)).length

/-- The slice `[start, stop)` of the corpus that a worker scans. -/
def slice (T : List Byte) (start stop : Nat) : List Byte :=
  (T.drop start).take (stop - start)

/-- The per-range counts: `kmpsearch` on each range of the list, in order. -/
def rangeCounts (data : List Byte) (P : List Byte) : List (Nat × Nat) → Except Fault (List Nat)
  | [] => .ok []
  | (start, stop) :: rest =>
    match kmpsearch (data.drop start) (stop - start) P with
    | .error e => .error e
    | .ok n =>
      match rangeCounts data P rest with
      | .error e => .error e
      | .ok ns => .ok (n :: ns)

/-- The clear-text bytes of a string literal. -/
def bytes (s : String) : List Byte := s.toList.map (fun c => c.toNat.toUInt8)

/-- Lines 151-170 of `main`: the report, or the fault that stops the run. -/
def mainReport (data : List Byte) (keywords : List (List Byte)) (threadcount : Nat)
    (clock : Nat → Nat → Int) : Except Fault (List (List Byte × Int × Int)) :=
  match mainResult data keywords threadcount clock with
  | .error e => .error e
  | .ok result => .ok (report result keywords)

/-! ## Invariants used in the proofs -/

/-- The automaton state `j` after reading `w`: the length of the longest prefix of `P`,
shorter than `P`, that is a suffix of `w`. -/
def KmpState (P w : List Byte) (j : Nat) : Prop :=
  j < P.length ∧ P.take j <:+ w ∧ ∀ k, k < P.length → P.take k <:+ w → k ≤ j

/-- The number `k` is the length of the longest proper prefix of `P[0..i]` that is also a
suffix of it. -/
def IsLps (P : List Byte) (i k : Nat) : Prop :=
  k ≤ i ∧ P.take k <:+ P.take (i + 1) ∧
    ∀ k1, k1 ≤ i → P.take k1 <:+ P.take (i + 1) → k1 ≤ k

/-- Every entry present in `next` is the failure value of its position. -/
def TableOK (P : List Byte) (next : List Nat) : Prop :=
  ∀ t v, next[t]? = some v → IsLps P t v

/-- The number of positions `e ≤ i` at which an occurrence of `P` in `T` ends. -/
def matchEnds (T P : List Byte) (i : Nat) : Nat :=
  ((List.range (i + 1)).filter (fun e => P <:+ T.take e)).length

/-- A sequence of block results merged one after another into `result`, each over the same
keyword list. -/
def mergeAll (keywords : List (List Byte)) (blocks : List BlockResult)
    (result : SearchResult) : SearchResult :=
  blocks.foldl (fun r b => mergeBlock b keywords r) result

/-- The value `x` is the minimum of the list `l`. -/
def IsMinOf (x : Int) (l : List Int) : Prop := x ∈ l ∧ ∀ y ∈ l, x ≤ y

/-- The value `x` is the maximum of the list `l`. -/
def IsMaxOf (x : Int) (l : List Int) : Prop := x ∈ l ∧ ∀ y ∈ l, y ≤ x

instance instDecidableIsMinOf (x : Int) (l : List Int) : Decidable (IsMinOf x l) := by
  unfold IsMinOf; infer_instance

instance instDecidableIsMaxOf (x : Int) (l : List Int) : Decidable (IsMaxOf x l) := by
  unfold IsMaxOf; infer_instance

/-- A block result holding one keyword with its count and its two timestamps. -/
def BlockResult.single (keyword : List Byte) (count st et : Int) : BlockResult :=
  { blockcounts := StrMap.empty.set keyword count
    st := StrMap.empty.set keyword st
    et := StrMap.empty.set keyword et }

/-! ## Further specification vocabulary -/

/-- Two results hold the same count, start time and end time for every key. -/
def SameResult (r1 r2 : SearchResult) : Prop :=
  ∀ p, r1.keywordCounts.get p = r2.keywordCounts.get p ∧
    r1.start_time.get p = r2.start_time.get p ∧ r1.end_time.get p = r2.end_time.get p

/-- No timestamp that block `b` holds for a keyword of the list is 0. -/
def NonzeroTimes (keywords : List (List Byte)) (b : BlockResult) : Prop :=
  ∀ p ∈ keywords, b.st.get p ≠ 0 ∧ b.et.get p ≠ 0

instance instDecidableNonzeroTimes (keywords : List (List Byte)) (b : BlockResult) :
    Decidable (NonzeroTimes keywords b) := by
  unfold NonzeroTimes; infer_instance

/-! ## The whole of `main` (lines 137-177) -/

/-- What `main` has done when it returns. -/
inductive Outcome where
  /-- The `exit(0)` of line 142: no thread was created and nothing was reported. -/
  | exitedEarly
  /-- The `return 0` of line 177: the ranges of the threads that were created, in order,
  and the report lines that were written. -/
  | finished (threads : List (Nat × Nat)) (lines : List (List Byte × Int × Int))
deriving DecidableEq

/-- The function `main`. `mapped` is the corpus when `MappedFile` could map it
(`isValid()`, line 140) and `none` otherwise; `keywordFile` holds the lines of
`keyword.txt` when the stream could be read and is `none` otherwise, in which case the
`getline` loop of lines 148-150 adds nothing to `keywords`. -/
def mainProgram (mapped : Option (List Byte)) (keywordFile : Option (List (List Byte)))
    (threadcount : Nat) (clock : Nat → Nat → Int) : Except Fault Outcome :=
  match mapped with
  | none => .ok .exitedEarly
  | some data =>
    let keywords := match keywordFile with
      | none => []
      | some lines => lines
    match mainResult data keywords threadcount clock with
    | .error e => .error e
    | .ok result =>
      .ok (.finished (mainBlocks data.length threadcount overlapsize) (report result keywords))

/-- A clock whose first reading is `a` and whose later readings are `b`, on every thread. -/
def clockOf (a b : Int) : Nat → Nat → Int := fun _ t => if t = 0 then a else b

/-! ## The scan with every index checked -/

/-- The read `pattern[k]` that faults unless `k < len(pattern)`. -/
def strAtChecked (s : List Byte) (k : Nat) : Except Fault Byte :=
  match s[k]? with
  | some c => .ok c
  | none => .error .outOfBounds

/-- The loop `fallback` with `pattern[j]` checked; `next[j - 1]` is checked by `vecAtPred`,
which faults unless `1 ≤ j ≤ len(next)`. -/
def fallbackChecked (next : List Nat) (pattern : List Byte) (c : Byte) :
    Nat → Nat → Except Fault Nat
  | 0, _ => .error .outOfFuel
  | fuel + 1, j =>
    if 0 < j then
      match strAtChecked pattern j with
      | .error e => .error e
      | .ok pj =>
        if pj ≠ c then
          match vecAtPred next j with
          | .error e => .error e
          | .ok j1 => fallbackChecked next pattern c fuel j1
        else .ok j
    else .ok j

/-- The loop `get_next_loop` that faults unless `j < len(pattern)` at the start of each
iteration and every read of `pattern` is below `len(pattern)`. -/
def get_next_loopChecked (pattern : List Byte) :
    Nat → Nat → Nat → List Nat → Except Fault (List Nat)
  | 0, _, _, next => .ok next
  | steps + 1, i, j, next =>
    if j < pattern.length then
      match strAtChecked pattern i with
      | .error e => .error e
      | .ok pi =>
        match fallbackChecked next pattern pi (j + 1) j with
        | .error e => .error e
        | .ok j1 =>
          match strAtChecked pattern j1 with
          | .error e => .error e
          | .ok pj =>
            let j2 := if pi = pj then j1 + 1 else j1
            get_next_loopChecked pattern steps (i + 1) j2 (next ++ [j2])
    else .error .outOfBounds

/-- The function `get_next` with every index checked. -/
def get_nextChecked (pattern : List Byte) : Except Fault (List Nat) :=
  get_next_loopChecked pattern (pattern.length - 1) 1 0 [0]

/-- The loop `kmpsearch_loop` that faults unless `j < len(pattern)` at the start of each
iteration and every read of `pattern` is below `len(pattern)`. -/
def kmpsearch_loopChecked (data : List Byte) (pattern : List Byte) (next : List Nat) :
    Nat → Nat → Nat → Nat → Except Fault Nat
  | 0, _, _, count => .ok count
  | steps + 1, i, j, count =>
    if j < pattern.length then
      match bufAt data i with
      | .error e => .error e
      | .ok c =>
        match fallbackChecked next pattern c (j + 1) j with
        | .error e => .error e
        | .ok j1 =>
          match strAtChecked pattern j1 with
          | .error e => .error e
          | .ok pj =>
            let j2 := if c = pj then j1 + 1 else j1
            if j2 = pattern.length then
              match vecAtPred next j2 with
              | .error e => .error e
              | .ok j3 => kmpsearch_loopChecked data pattern next steps (i + 1) j3 (count + 1)
            else kmpsearch_loopChecked data pattern next steps (i + 1) j2 count
    else .error .outOfBounds

/-- The function `kmpsearch` with every index checked. -/
def kmpsearchChecked (data : List Byte) (datalen : Nat) (pattern : List Byte) :
    Except Fault Nat :=
  match get_nextChecked pattern with
  | .error e => .error e
  | .ok next => kmpsearch_loopChecked data pattern next datalen 0 0 0

/-! ## The inner loop by well-founded recursion -/

/-- Every entry of the table is at most its index: `next[k] ≤ k`. -/
@[reducible] def TableLe (next : List Nat) : Prop :=
  ∀ (k v : Nat), next[k]? = some v → v ≤ k

/-- The loop `while (j > 0 && pattern[j] != c) j = next[j - 1];` without fuel, by
well-founded recursion on `j`, for a table with `next[k] ≤ k`. -/
def fallbackWF (next : List Nat) (hb : TableLe next) (pattern : List Byte) (c : Byte)
    (j : Nat) : Except Fault Nat :=
  if 0 < j then
    match strAt pattern j with
    | .error e => .error e
    | .ok pj =>
      if pj ≠ c then
        match h : vecAtPred next j with
        | .error e => .error e
        | .ok j1 => fallbackWF next hb pattern c j1
      else .ok j
  else .ok j
termination_by j
decreasing_by
  unfold vecAtPred vecAt at h
  split at h
  · cases h
  · split at h
    · rename_i x hx
      cases h
      have := hb _ _ hx
      omega
    · cases h

/-! ## The scan in 32-bit arithmetic -/

/-- The conversion of an `int` to `size_t` in the comparisons `i < datalen` and
`j == pattern.length()`. -/
def toSizeT (x : Int) : Nat := (x % 2 ^ 64).toNat

/-- The increment `x++` of an `int` in wrap-around arithmetic. -/
def incWrap (x : Int) : Except Fault Int := .ok (toInt32 (x + 1))

/-- The increment `x++` of an `int` that faults when the result exceeds `2^31 - 1`. -/
def incTrap (x : Int) : Except Fault Int :=
  if x + 1 ≤ 2 ^ 31 - 1 then .ok (x + 1) else .error .overflow

/-- The `for` loop of `kmpsearch` (lines 99-106) with `i`, `j` and `count` 32-bit `int`s
incremented by `inc`; a negative index is out of bounds. The first argument is fuel. -/
def kmpsearch_loop32 (inc : Int → Except Fault Int) (data : List Byte) (datalen : Nat)
    (pattern : List Byte) (next : List Nat) : Nat → Int → Int → Int → Except Fault Int
  | 0, _, _, _ => .error .outOfFuel
  | fuel + 1, i, j, count =>
    if toSizeT i < datalen then
      if i < 0 ∨ j < 0 then .error .outOfBounds
      else
        match bufAt data i.toNat with
        | .error e => .error e
        | .ok c =>
          match fallback next pattern c (j.toNat + 1) j.toNat with
          | .error e => .error e
          | .ok j1 =>
            match strAt pattern j1 with
            | .error e => .error e
            | .ok pj =>
              match (if c = pj then inc (j1 : Int) else .ok (j1 : Int)) with
              | .error e => .error e
              | .ok j2 =>
                match inc i with
                | .error e => .error e
                | .ok i1 =>
                  if toSizeT j2 = pattern.length then
                    match inc count with
                    | .error e => .error e
                    | .ok count1 =>
                      if j2 < 0 then .error .outOfBounds
                      else
                        match vecAtPred next j2.toNat with
                        | .error e => .error e
                        | .ok j3 =>
                          kmpsearch_loop32 inc data datalen pattern next fuel i1 (j3 : Int)
                            count1
                  else kmpsearch_loop32 inc data datalen pattern next fuel i1 j2 count
    else .ok count

/-- The function `kmpsearch` (lines 96-108) with 32-bit `i`, `j` and `count`. The loop body
runs at most `datalen` times, so fuel `datalen + 1` is never exhausted. -/
def kmpsearch32 (inc : Int → Except Fault Int) (data : List Byte) (datalen : Nat)
    (pattern : List Byte) : Except Fault Int :=
  match get_next pattern with
  | .error e => .error e
  | .ok next => kmpsearch_loop32 inc data datalen pattern next (datalen + 1) 0 0 0

/-! ## The worker and `main` on the 32-bit scan -/

theorem take_succ_getElem (P : List Byte) (k : Nat) (c : Byte) (h : P[k]? = some c) :
    P.take (k + 1) = P.take k ++ [c] := by
  rw [List.take_succ, h]; rfl

theorem suffix_snoc_iff (a b : List Byte) (x y : Byte) :
    a ++ [x] <:+ b ++ [y] ↔ a <:+ b ∧ x = y := by
  rw [← List.reverse_prefix]
  simp [List.cons_prefix_cons, List.reverse_prefix, and_comm]

theorem strAt_lt (P : List Byte) (k : Nat) (h : k < P.length) :
    strAt P k = .ok (P[k]) := by
  simp [strAt, List.getElem?_eq_getElem h]

theorem take_suffix_take (P w : List Byte) (k j : Nat) (hkj : k ≤ j)
    (hk : P.take k <:+ w) (hjw : P.take j <:+ w) : P.take k <:+ P.take j := by
  apply List.suffix_of_suffix_length_le hk hjw
  simp [List.length_take]; omega

theorem fallback_spec (P : List Byte) (next : List Nat) (w : List Byte) (c : Byte)
    (hT : TableOK P next) :
    ∀ fuel j, j < fuel → j ≤ next.length → j < P.length → P.take j <:+ w →
      ∃ j1, fallback next P c fuel j = .ok j1 ∧ j1 ≤ j ∧ P.take j1 <:+ w ∧
        (j1 = 0 ∨ P[j1]? = some c) ∧
        ∀ k, k ≤ j → P.take k <:+ w → P[k]? = some c → k ≤ j1 := by
  intro fuel
  induction fuel with
  | zero => intro j h; omega
  | succ fuel ih =>
    intro j hjf hjn hjm hjw
    by_cases hj0 : j = 0
    · subst hj0
      exact ⟨0, by simp [fallback], le_refl _, hjw, Or.inl rfl, fun k hk _ _ => hk⟩
    · have hpos : 0 < j := Nat.pos_of_ne_zero hj0
      by_cases hc : P[j] = c
      · refine ⟨j, ?_, le_refl _, hjw, Or.inr ?_, fun k hk _ _ => hk⟩
        · simp [fallback, hpos, strAt_lt P j hjm, hc]
        · simp [List.getElem?_eq_getElem hjm, hc]
      · have hlt : j - 1 < next.length := by omega
        have hv := hT (j - 1) (next[j - 1]) (List.getElem?_eq_getElem hlt)
        obtain ⟨hv1, hv2, hv3⟩ := hv
        have hjj : j - 1 + 1 = j := by omega
        rw [hjj] at hv2 hv3
        set v := next[j - 1] with hvdef
        obtain ⟨j1, e1, e2, e3, e4, e5⟩ :=
          ih v (by omega) (by omega) (by omega) (hv2.trans hjw)
        refine ⟨j1, ?_, by omega, e3, e4, ?_⟩
        · simp [fallback, hpos, strAt_lt P j hjm, hc, vecAtPred, hj0, vecAt,
            List.getElem?_eq_getElem hlt, ← hvdef, e1]
        · intro k hk hkw hkc
          have hkj : k ≠ j := by
            intro h; subst h
            rw [List.getElem?_eq_getElem hjm] at hkc
            exact hc (Option.some.inj hkc)
          have hk1 : k ≤ j - 1 := by omega
          have := hv3 k hk1 (take_suffix_take P w k j hk hkw hjw)
          exact e5 k this hkw hkc

theorem step_spec (P : List Byte) (next : List Nat) (w : List Byte) (c : Byte) (j : Nat)
    (hT : TableOK P next) (hjn : j ≤ next.length) (hS : KmpState P w j) :
    ∃ j1 pj, fallback next P c (j + 1) j = .ok j1 ∧ strAt P j1 = .ok pj ∧
      (if c = pj then j1 + 1 else j1) ≤ P.length ∧
      P.take (if c = pj then j1 + 1 else j1) <:+ w ++ [c] ∧
      ∀ k, k ≤ P.length → P.take k <:+ w ++ [c] → k ≤ (if c = pj then j1 + 1 else j1) := by
  obtain ⟨hjm, hjw, hmax⟩ := hS
  obtain ⟨j1, e1, e2, e3, e4, e5⟩ :=
    fallback_spec P next w c hT (j + 1) j (by omega) hjn hjm hjw
  have hj1m : j1 < P.length := by omega
  have hget : P[j1]? = some P[j1] := List.getElem?_eq_getElem hj1m
  refine ⟨j1, P[j1], e1, strAt_lt P j1 hj1m, ?_, ?_, ?_⟩
  · split <;> omega
  · by_cases hc : c = P[j1]
    · rw [if_pos hc, take_succ_getElem P j1 _ hget, suffix_snoc_iff]
      exact ⟨e3, hc.symm⟩
    · rw [if_neg hc]
      rcases e4 with h0 | h1
      · rw [h0]; exact List.nil_suffix
      · rw [hget] at h1; exact absurd (Option.some.inj h1).symm hc
  · intro k hk hkw
    cases k with
    | zero => exact Nat.zero_le _
    | succ k =>
      have hkm : k < P.length := by omega
      have hgk : P[k]? = some P[k] := List.getElem?_eq_getElem hkm
      rw [take_succ_getElem P k _ hgk, suffix_snoc_iff] at hkw
      obtain ⟨hkw1, hkc⟩ := hkw
      have hkj : k ≤ j := hmax k hkm hkw1
      have hk1 : k ≤ j1 := e5 k hkj hkw1 (by rw [hgk, hkc])
      have hc : c = P[j1] := by
        rcases e4 with h0 | h1
        · have hk0 : k = 0 := by omega
          subst hk0; subst h0; exact hkc.symm
        · rw [hget] at h1; exact (Option.some.inj h1).symm
      rw [if_pos hc]; omega

theorem lps_to_state (P : List Byte) (i j : Nat) (hi1 : 1 ≤ i) (him : i ≤ P.length)
    (h : IsLps P (i - 1) j) : KmpState P ((P.take i).drop 1) j := by
  obtain ⟨h1, h2, h3⟩ := h
  have hii : i - 1 + 1 = i := by omega
  rw [hii] at h2 h3
  refine ⟨by omega, ?_, ?_⟩
  · apply List.suffix_of_suffix_length_le h2 (List.drop_suffix 1 _)
    simp [List.length_take]; omega
  · intro k hk hkw
    have hlen := hkw.length_le
    simp [List.length_take] at hlen
    exact h3 k (by omega) (hkw.trans (List.drop_suffix 1 _))

theorem state_to_lps (P : List Byte) (i j2 : Nat) (hi1 : 1 ≤ i) (him : i < P.length)
    (h2 : P.take j2 <:+ (P.take i).drop 1 ++ [P[i]])
    (h3 : ∀ k, k ≤ P.length → P.take k <:+ (P.take i).drop 1 ++ [P[i]] → k ≤ j2) :
    IsLps P i j2 := by
  have hw : (P.take i).drop 1 ++ [P[i]] = (P.take (i + 1)).drop 1 := by
    rw [take_succ_getElem P i P[i] (List.getElem?_eq_getElem him)]
    rw [List.drop_append_of_le_length]
    simp [List.length_take]; omega
  rw [hw] at h2 h3
  have hlen := h2.length_le
  simp [List.length_take] at hlen
  refine ⟨by omega, h2.trans (List.drop_suffix 1 _), ?_⟩
  intro k hk hkw
  apply h3 k (by omega)
  apply List.suffix_of_suffix_length_le hkw (List.drop_suffix 1 _)
  simp [List.length_take]; omega

theorem tableOK_snoc (P : List Byte) (next : List Nat) (v : Nat) (hT : TableOK P next)
    (hv : IsLps P next.length v) : TableOK P (next ++ [v]) := by
  intro t x hx
  rw [List.getElem?_append] at hx
  split at hx
  · exact hT t x hx
  · rename_i hge
    have hlt : t - next.length < 1 := by
      by_contra hcon
      rw [List.getElem?_eq_none (by simp; omega)] at hx
      cases hx
    have ht : t = next.length := by omega
    subst ht
    simp at hx
    subst hx
    exact hv

theorem get_next_loop_spec (P : List Byte) :
    ∀ steps i j next, 1 ≤ i → i + steps = P.length → next.length = i → TableOK P next →
      IsLps P (i - 1) j →
      ∃ tbl, get_next_loop P steps i j next = .ok tbl ∧ tbl.length = P.length ∧
        TableOK P tbl := by
  intro steps
  induction steps with
  | zero =>
    intro i j next _ him hlen hT _
    exact ⟨next, rfl, by omega, hT⟩
  | succ steps ih =>
    intro i j next hi1 him hlen hT hj
    have hilt : i < P.length := by omega
    have hS := lps_to_state P i j hi1 (le_of_lt hilt) hj
    obtain ⟨j1, pj, e1, e2, e3, e4, e5⟩ :=
      step_spec P next ((P.take i).drop 1) P[i] j hT (by have := hj.1; omega) hS
    have hlps := state_to_lps P i _ hi1 hilt e4 e5
    obtain ⟨tbl, t1, t2, t3⟩ :=
      ih (i + 1) (if P[i] = pj then j1 + 1 else j1)
        (next ++ [if P[i] = pj then j1 + 1 else j1]) (by omega) (by omega)
        (by simp [hlen]) (tableOK_snoc P next _ hT (by rw [hlen]; exact hlps))
        (by simpa using hlps)
    refine ⟨tbl, ?_, t2, t3⟩
    simp only [get_next_loop, strAt_lt P i hilt, e1, e2]
    exact t1

theorem get_next_spec (P : List Byte) (hP : P ≠ []) :
    ∃ tbl, get_next P = .ok tbl ∧ tbl.length = P.length ∧ TableOK P tbl := by
  have hpos : 0 < P.length := List.length_pos.mpr hP
  apply get_next_loop_spec P (P.length - 1) 1 0 [0] (le_refl _) (by omega) rfl
  · intro t v htv
    cases t with
    | zero =>
      simp at htv; subst htv
      exact ⟨le_refl _, by simp, fun k hk _ => hk⟩
    | succ t => simp at htv
  · exact ⟨le_refl _, by simp, fun k hk _ => hk⟩

theorem filter_range_card (p : Nat → Prop) [DecidablePred p] (n : Nat) :
    ((List.range n).filter (fun x => decide (p x))).length
      = ((Finset.range n).filter p).card := by
  rfl

theorem matchEnds_zero (T P : List Byte) (hP : P ≠ []) : matchEnds T P 0 = 0 := by
  simp [matchEnds, List.range_succ, hP]

theorem matchEnds_succ (T P : List Byte) (i : Nat) :
    matchEnds T P (i + 1)
      = matchEnds T P i + (if P <:+ T.take (i + 1) then 1 else 0) := by
  unfold matchEnds
  rw [List.range_succ, List.filter_append, List.length_append]
  by_cases h : P <:+ T.take (i + 1) <;> simp [h]

theorem occursAt_iff_suffix (T P : List Byte) (s : Nat) (h : s + P.length ≤ T.length) :
    (T.drop s).take P.length = P ↔ P <:+ T.take (s + P.length) := by
  rw [List.take_add]
  constructor
  · intro h1
    exact ⟨T.take s, by rw [h1]⟩
  · intro h1
    have h2 : (T.drop s).take P.length <:+ T.take s ++ (T.drop s).take P.length :=
      List.suffix_append _ _
    have hlen : ((T.drop s).take P.length).length = P.length := by
      simp [List.length_take]; omega
    have h3 := List.suffix_of_suffix_length_le h2 h1 (le_of_eq hlen)
    exact h3.eq_of_length hlen

theorem matchEnds_eq_occurrences (T P : List Byte) :
    matchEnds T P T.length = occurrences T P := by
  unfold matchEnds occurrences
  rw [filter_range_card, filter_range_card]
  symm
  apply Finset.card_nbij' (fun s => s + P.length) (fun e => e - P.length)
  · intro s hs
    simp only [Finset.mem_filter, Finset.mem_range, Finset.coe_filter, Set.mem_setOf_eq] at hs ⊢
    obtain ⟨_, h1, h2⟩ := hs
    exact ⟨by omega, (occursAt_iff_suffix T P s h1).mp h2⟩
  · intro e he
    simp only [Finset.mem_filter, Finset.mem_range, Finset.coe_filter, Set.mem_setOf_eq] at he ⊢
    obtain ⟨h1, h2⟩ := he
    have hlen := h2.length_le
    simp [List.length_take] at hlen
    have he : e - P.length + P.length = e := by omega
    refine ⟨by omega, by omega, ?_⟩
    rw [occursAt_iff_suffix T P _ (by omega), he]
    exact h2
  · intro s _
    simp
  · intro e he
    simp only [Finset.mem_filter, Finset.mem_range, Finset.coe_filter, Set.mem_setOf_eq] at he
    have hlen := he.2.length_le
    simp [List.length_take] at hlen
    show e - P.length + P.length = e
    omega

theorem bufAt_lt (T : List Byte) (i : Nat) (h : i < T.length) : bufAt T i = .ok T[i] := by
  simp [bufAt, List.getElem?_eq_getElem h]

theorem kmpsearch_loop_spec (T P : List Byte) (next : List Nat) (hP : P ≠ [])
    (hlen : next.length = P.length) (hT : TableOK P next) :
    ∀ steps i j count, i + steps ≤ T.length → KmpState P (T.take i) j →
      count = matchEnds T P i →
      kmpsearch_loop T P next steps i j count = .ok (matchEnds T P (i + steps)) := by
  have hpos : 0 < P.length := List.length_pos.mpr hP
  intro steps
  induction steps with
  | zero =>
    intro i j count _ _ hc
    simp [kmpsearch_loop, hc]
  | succ steps ih =>
    intro i j count hi hS hc
    have hilt : i < T.length := by omega
    have htake : T.take (i + 1) = T.take i ++ [T[i]] :=
      take_succ_getElem T i _ (List.getElem?_eq_getElem hilt)
    obtain ⟨j1, pj, e1, e2, e3, e4, e5⟩ :=
      step_spec P next (T.take i) T[i] j hT (by have := hS.1; omega) hS
    rw [← htake] at e4 e5
    have hstep : i + (steps + 1) = i + 1 + steps := by omega
    rw [hstep]
    simp only [kmpsearch_loop, bufAt_lt T i hilt, e1, e2]
    by_cases hfull : (if T[i] = pj then j1 + 1 else j1) = P.length
    · rw [if_pos hfull]
      rw [hfull] at e4
      rw [List.take_length] at e4
      have hm1 : P.length - 1 < next.length := by omega
      have hv := hT (P.length - 1) (next[P.length - 1]) (List.getElem?_eq_getElem hm1)
      obtain ⟨v1, v2, v3⟩ := hv
      have hmm : P.length - 1 + 1 = P.length := by omega
      rw [hmm, List.take_length] at v2 v3
      have hvec : vecAtPred next (if T[i] = pj then j1 + 1 else j1)
          = .ok next[P.length - 1] := by
        rw [hfull]
        simp [vecAtPred, vecAt, List.getElem?_eq_getElem hm1, hP]
      rw [hvec]
      apply ih (i + 1) _ (count + 1) (by omega)
      · refine ⟨by omega, v2.trans e4, ?_⟩
        intro k hk hkw
        apply v3 k (by omega)
        have := take_suffix_take P (T.take (i + 1)) k P.length (le_of_lt hk) hkw
          (by rw [List.take_length]; exact e4)
        rwa [List.take_length] at this
      · rw [matchEnds_succ, if_pos e4, hc]
    · rw [if_neg hfull]
      apply ih (i + 1) _ count (by omega)
      · exact ⟨by omega, e4, fun k hk hkw => e5 k (le_of_lt hk) hkw⟩
      · rw [matchEnds_succ, if_neg, hc]
        · rfl
        · intro hsuf
          have := e5 P.length (le_refl _) (by rw [List.take_length]; exact hsuf)
          omega

theorem matchEnds_take (D P : List Byte) (d : Nat) :
    matchEnds D P d = matchEnds (D.take d) P d := by
  unfold matchEnds
  congr 1
  apply List.filter_congr
  intro e he
  rw [List.mem_range] at he
  rw [List.take_take, Nat.min_eq_left (by omega)]

theorem kmpsearch_spec (D P : List Byte) (d : Nat) (hP : P ≠ []) (hd : d ≤ D.length) :
    kmpsearch D d P = .ok (occurrences (D.take d) P) := by
  obtain ⟨tbl, t1, t2, t3⟩ := get_next_spec P hP
  have hpos : 0 < P.length := List.length_pos.mpr hP
  have h := kmpsearch_loop_spec D P tbl hP t2 t3 d 0 0 0 (by omega)
    ⟨hpos, by simp, fun k hk hkw => by
      have := hkw.length_le
      simp [List.length_take, hP] at this
      omega⟩
    (matchEnds_zero D P hP).symm
  have hlen : (D.take d).length = d := by simp [List.length_take]; omega
  have hm : matchEnds D P d = occurrences (D.take d) P := by
    rw [matchEnds_take]
    nth_rewrite 2 [← hlen]
    exact matchEnds_eq_occurrences _ _
  simp only [kmpsearch, t1, h, Nat.zero_add, hm]

theorem spawnLoop_eq (size n ov : Nat) (steps i : Nat) (acc : List (Nat × Nat)) :
    spawnLoop size n ov steps i acc
      = acc ++ (List.range steps).map (fun k => blockBounds size n ov (i + k)) := by
  induction steps generalizing i acc with
  | zero => simp [spawnLoop]
  | succ steps ih =>
    rw [spawnLoop, ih, List.range_succ_eq_map]
    simp [List.map_map, Function.comp_def, Nat.add_assoc, Nat.add_comm 1]

theorem mainBlocks_eq (size n ov : Nat) :
    mainBlocks size n ov = (List.range n).map (blockBounds size n ov) := by
  simp [mainBlocks, spawnLoop_eq]

theorem mainBlocks_getElem? (size n ov i : Nat) (h : i < n) :
    (mainBlocks size n ov)[i]? = some (blockBounds size n ov i) := by
  simp [mainBlocks_eq, List.getElem?_range h]

theorem mainBlocks_start_le_stop (size n ov : Nat) :
    ∀ r ∈ mainBlocks size n ov, r.1 ≤ r.2 := by
  intro r hr
  rw [mainBlocks_eq, List.mem_map] at hr
  obtain ⟨i, hi, rfl⟩ := hr
  rw [List.mem_range] at hi
  by_cases hlast : i = n - 1
  · have h1 : (n - 1) * (size / n) ≤ n * (size / n) := Nat.mul_le_mul_right _ (by omega)
    have h2 : n * (size / n) ≤ size := Nat.mul_div_le size n
    simp only [blockBounds, hlast, if_true]
    omega
  · have h1 : i * (size / n) ≤ (i + 1) * (size / n) := Nat.mul_le_mul_right _ (by omega)
    simp only [blockBounds, hlast, if_false]
    omega

/-- C6. For every `total_length`, every `worker_count ≥ 1` and every overlap, the block
computation of `main` yields exactly `worker_count` ranges in order: range `i` for
`i < worker_count - 1` is `[i * chunk, (i + 1) * chunk + overlap)` and the final range is
`[(worker_count - 1) * chunk, total_length)`, with `chunk = total_length / worker_count`;
`total_length = 1000`, `worker_count = 4`, `overlap = 50` give
`[0,300), [250,550), [500,800), [750,1000)`. -/
theorem mainBlocks_ranges (total_length worker_count overlap : Nat) (hw : 1 ≤ worker_count) :
    (mainBlocks total_length worker_count overlap).length = worker_count ∧
    (∀ i, i < worker_count - 1 →
      (mainBlocks total_length worker_count overlap)[i]?
        = some (i * (total_length / worker_count),
                (i + 1) * (total_length / worker_count) + overlap)) ∧
    (mainBlocks total_length worker_count overlap)[worker_count - 1]?
      = some ((worker_count - 1) * (total_length / worker_count), total_length) ∧
    mainBlocks 1000 4 50 = [(0, 300), (250, 550), (500, 800), (750, 1000)] := by
  refine ⟨by simp [mainBlocks_eq], ?_, ?_, by decide⟩
  · intro i hi
    rw [mainBlocks_getElem? _ _ _ _ (by omega)]
    simp [blockBounds]
    omega
  · rw [mainBlocks_getElem? _ _ _ _ (by omega)]
    simp [blockBounds]

/-- Witness for C6 at `total_length = 1000`, `worker_count = 4`, `overlap = 50`. -/
theorem mainBlocks_ranges_witness :
    1 ≤ 4 ∧ (mainBlocks 1000 4 50).length = 4 ∧
    (∀ i, i < 4 - 1 →
      (mainBlocks 1000 4 50)[i]? = some (i * (1000 / 4), (i + 1) * (1000 / 4) + 50)) ∧
    (mainBlocks 1000 4 50)[4 - 1]? = some ((4 - 1) * (1000 / 4), 1000) ∧
    mainBlocks 1000 4 50 = [(0, 300), (250, 550), (500, 800), (750, 1000)] :=
  ⟨by decide, mainBlocks_ranges 1000 4 50 (by decide)⟩

/-- C7 (failing input). On a corpus of 10 bytes with two workers, `main` hands worker 0
the range `[0, 55)`, which reaches 45 bytes past the end of the corpus, and the scan of
that range reads outside the buffer. -/
theorem range_past_corpus_end :
    mainBlocks 10 2 overlapsize = [(0, 55), (5, 10)] ∧ ¬ (55 ≤ 10) ∧
    mainReport (List.replicate 10 97) [bytes "a"] 2 (fun _ _ => 0) = .error .outOfBounds := by
  decide

/-- C8 (counterexample). With `total_length = 1` and `worker_count = 2` the partitioning
does not degrade to the single range `[0, 1)`: it yields the two ranges `[0, 50)` and
`[0, 1)`. -/
theorem no_degrade_to_single_range :
    1 ≤ 2 ∧ 1 < 2 ∧ mainBlocks 1 2 overlapsize ≠ [(0, 1)] ∧
    mainBlocks 1 2 overlapsize = [(0, 50), (0, 1)] := by
  decide

/-- C8 (amended). For every `total_length` and `worker_count ≥ 1` with
`total_length < worker_count`, the partitioning does not degrade to a single range: it
still yields `worker_count` ranges, every one starting at offset 0 and none inverted, the
last of which is `[0, total_length)` and covers the whole corpus. -/
theorem small_corpus_blocks (total_length worker_count : Nat) (hw : 1 ≤ worker_count)
    (hlt : total_length < worker_count) :
    (mainBlocks total_length worker_count overlapsize).length = worker_count ∧
    (∀ r ∈ mainBlocks total_length worker_count overlapsize, r.1 = 0 ∧ r.1 ≤ r.2) ∧
    (mainBlocks total_length worker_count overlapsize).getLast? = some (0, total_length) := by
  have hdiv : total_length / worker_count = 0 := Nat.div_eq_of_lt hlt
  refine ⟨by simp [mainBlocks_eq], ?_, ?_⟩
  · intro r hr
    rw [mainBlocks_eq, List.mem_map] at hr
    obtain ⟨i, _, rfl⟩ := hr
    simp [blockBounds, hdiv]
  · obtain ⟨k, rfl⟩ : ∃ k, worker_count = k + 1 := ⟨worker_count - 1, by omega⟩
    rw [mainBlocks_eq, List.range_succ]
    simp [blockBounds, hdiv]

/-- Witness for the amended C8 at `total_length = 1`, `worker_count = 2`. -/
theorem small_corpus_blocks_witness :
    1 ≤ 2 ∧ 1 < 2 ∧ (mainBlocks 1 2 overlapsize).length = 2 ∧
    (∀ r ∈ mainBlocks 1 2 overlapsize, r.1 = 0 ∧ r.1 ≤ r.2) ∧
    (mainBlocks 1 2 overlapsize).getLast? = some (0, 1) :=
  ⟨by decide, by decide, small_corpus_blocks 1 2 (by decide) (by decide)⟩

/-! ## Merge step: lemmas -/

theorem StrMap.get_set (m : StrMap) (k : List Byte) (v : Int) (p : List Byte) :
    (m.set k v).get p = if p = k then v else m.get p := by
  unfold StrMap.get StrMap.set
  split <;> simp

theorem mergeKeyword_counts (b : BlockResult) (k : List Byte) (r : SearchResult)
    (p : List Byte) :
    (mergeKeyword b k r).keywordCounts.get p
      = if p = k then r.keywordCounts.get k + b.blockcounts.get k
        else r.keywordCounts.get p := by
  simp [mergeKeyword, StrMap.get_set]

theorem mergeKeyword_start (b : BlockResult) (k : List Byte) (r : SearchResult)
    (p : List Byte) :
    (mergeKeyword b k r).start_time.get p
      = if p = k then
          (if r.start_time.get k = 0 then b.st.get k
           else min (r.start_time.get k) (b.st.get k))
        else r.start_time.get p := by
  unfold mergeKeyword
  by_cases h0 : r.start_time.get k = 0 <;> simp [h0, StrMap.get_set]

theorem mergeKeyword_end (b : BlockResult) (k : List Byte) (r : SearchResult)
    (p : List Byte) :
    (mergeKeyword b k r).end_time.get p
      = if p = k then
          (if r.end_time.get k = 0 then b.et.get k
           else max (r.end_time.get k) (b.et.get k))
        else r.end_time.get p := by
  unfold mergeKeyword
  by_cases h0 : r.end_time.get k = 0 <;> simp [h0, StrMap.get_set]

theorem mergeBlock_counts (b : BlockResult) (p : List Byte) :
    ∀ (keywords : List (List Byte)) (r : SearchResult),
      (mergeBlock b keywords r).keywordCounts.get p
        = r.keywordCounts.get p + (keywords.count p : Int) * b.blockcounts.get p := by
  intro keywords
  induction keywords with
  | nil => intro r; simp [mergeBlock]
  | cons k rest ih =>
    intro r
    rw [mergeBlock, ih, mergeKeyword_counts]
    by_cases hpk : p = k
    · subst hpk
      simp [List.count_cons_self]
      ring
    · have hkp : ¬ k = p := fun h => hpk h.symm
      simp [hpk, List.count_cons_of_ne hkp]

theorem mergeBlock_start (b : BlockResult) (p : List Byte) :
    ∀ (keywords : List (List Byte)) (r : SearchResult),
      (mergeBlock b keywords r).start_time.get p
        = if p ∈ keywords then
            (if r.start_time.get p = 0 then b.st.get p
             else min (r.start_time.get p) (b.st.get p))
          else r.start_time.get p := by
  intro keywords
  induction keywords with
  | nil => intro r; simp [mergeBlock]
  | cons k rest ih =>
    intro r
    rw [mergeBlock, ih, mergeKeyword_start]
    by_cases hpk : p = k
    · subst hpk
      simp only [if_true, List.mem_cons, true_or]
      by_cases h0 : r.start_time.get p = 0
      · simp only [h0, if_true]
        by_cases h1 : b.st.get p = 0 <;> simp [h1]
      · simp only [h0, if_false]
        by_cases h1 : min (r.start_time.get p) (b.st.get p) = 0
        · have hb : b.st.get p = 0 := by
            rcases min_choice (r.start_time.get p) (b.st.get p) with h | h
            · rw [h] at h1; exact absurd h1 h0
            · rw [h] at h1; exact h1
          simp [h1, hb]
        · simp [h1]
    · simp [hpk]

theorem mergeBlock_end (b : BlockResult) (p : List Byte) :
    ∀ (keywords : List (List Byte)) (r : SearchResult),
      (mergeBlock b keywords r).end_time.get p
        = if p ∈ keywords then
            (if r.end_time.get p = 0 then b.et.get p
             else max (r.end_time.get p) (b.et.get p))
          else r.end_time.get p := by
  intro keywords
  induction keywords with
  | nil => intro r; simp [mergeBlock]
  | cons k rest ih =>
    intro r
    rw [mergeBlock, ih, mergeKeyword_end]
    by_cases hpk : p = k
    · subst hpk
      simp only [if_true, List.mem_cons, true_or]
      by_cases h0 : r.end_time.get p = 0
      · simp only [h0, if_true]
        by_cases h1 : b.et.get p = 0 <;> simp [h1]
      · simp only [h0, if_false]
        by_cases h1 : max (r.end_time.get p) (b.et.get p) = 0
        · have hb : b.et.get p = 0 := by
            rcases max_choice (r.end_time.get p) (b.et.get p) with h | h
            · rw [h] at h1; exact absurd h1 h0
            · rw [h] at h1; exact h1
          simp [h1, hb]
        · simp [h1]
    · simp [hpk]

theorem mergeAll_start_of_ne_zero (keywords : List (List Byte)) (p : List Byte)
    (hp : p ∈ keywords) :
    ∀ (bs : List BlockResult) (r : SearchResult), r.start_time.get p ≠ 0 →
      (∀ b ∈ bs, b.st.get p ≠ 0) →
      IsMinOf ((mergeAll keywords bs r).start_time.get p)
        (r.start_time.get p :: bs.map (fun b => b.st.get p)) := by
  intro bs
  induction bs with
  | nil =>
    intro r _ _
    simp [mergeAll, IsMinOf]
  | cons b rest ih =>
    intro r hr hbs
    have hb : b.st.get p ≠ 0 := hbs b (List.mem_cons_self _ _)
    have hX : (mergeBlock b keywords r).start_time.get p
        = min (r.start_time.get p) (b.st.get p) := by
      rw [mergeBlock_start, if_pos hp, if_neg hr]
    have hX0 : (mergeBlock b keywords r).start_time.get p ≠ 0 := by
      rw [hX]
      rcases min_choice (r.start_time.get p) (b.st.get p) with h | h <;> rw [h] <;> assumption
    have h := ih (mergeBlock b keywords r) hX0
      (fun b1 hb1 => hbs b1 (List.mem_cons_of_mem _ hb1))
    rw [hX] at h
    obtain ⟨hmem, hle⟩ := h
    have hmin := hle _ (List.mem_cons_self _ _)
    refine ⟨?_, ?_⟩
    · rcases List.mem_cons.mp hmem with h1 | h1
      · show (mergeAll keywords rest (mergeBlock b keywords r)).start_time.get p ∈ _
        rw [h1]
        rcases min_choice (r.start_time.get p) (b.st.get p) with h | h <;> rw [h] <;> simp
      · simp only [List.map_cons, List.mem_cons]
        exact Or.inr (Or.inr h1)
    · intro y hy
      show (mergeAll keywords rest (mergeBlock b keywords r)).start_time.get p ≤ y
      simp only [List.map_cons, List.mem_cons] at hy
      rcases hy with h1 | h1 | h1
      · rw [h1]; exact le_trans hmin (min_le_left _ _)
      · rw [h1]; exact le_trans hmin (min_le_right _ _)
      · exact hle y (List.mem_cons_of_mem _ h1)

theorem mergeAll_end_of_ne_zero (keywords : List (List Byte)) (p : List Byte)
    (hp : p ∈ keywords) :
    ∀ (bs : List BlockResult) (r : SearchResult), r.end_time.get p ≠ 0 →
      (∀ b ∈ bs, b.et.get p ≠ 0) →
      IsMaxOf ((mergeAll keywords bs r).end_time.get p)
        (r.end_time.get p :: bs.map (fun b => b.et.get p)) := by
  intro bs
  induction bs with
  | nil =>
    intro r _ _
    simp [mergeAll, IsMaxOf]
  | cons b rest ih =>
    intro r hr hbs
    have hb : b.et.get p ≠ 0 := hbs b (List.mem_cons_self _ _)
    have hX : (mergeBlock b keywords r).end_time.get p
        = max (r.end_time.get p) (b.et.get p) := by
      rw [mergeBlock_end, if_pos hp, if_neg hr]
    have hX0 : (mergeBlock b keywords r).end_time.get p ≠ 0 := by
      rw [hX]
      rcases max_choice (r.end_time.get p) (b.et.get p) with h | h <;> rw [h] <;> assumption
    have h := ih (mergeBlock b keywords r) hX0
      (fun b1 hb1 => hbs b1 (List.mem_cons_of_mem _ hb1))
    rw [hX] at h
    obtain ⟨hmem, hle⟩ := h
    have hmax := hle _ (List.mem_cons_self _ _)
    refine ⟨?_, ?_⟩
    · rcases List.mem_cons.mp hmem with h1 | h1
      · show (mergeAll keywords rest (mergeBlock b keywords r)).end_time.get p ∈ _
        rw [h1]
        rcases max_choice (r.end_time.get p) (b.et.get p) with h | h <;> rw [h] <;> simp
      · simp only [List.map_cons, List.mem_cons]
        exact Or.inr (Or.inr h1)
    · intro y hy
      show y ≤ (mergeAll keywords rest (mergeBlock b keywords r)).end_time.get p
      simp only [List.map_cons, List.mem_cons] at hy
      rcases hy with h1 | h1 | h1
      · rw [h1]; exact le_trans (le_max_left _ _) hmax
      · rw [h1]; exact le_trans (le_max_right _ _) hmax
      · exact hle y (List.mem_cons_of_mem _ h1)

theorem empty_get (p : List Byte) :
    SearchResult.empty.keywordCounts.get p = 0 ∧ SearchResult.empty.start_time.get p = 0 ∧
      SearchResult.empty.end_time.get p = 0 := by
  simp [SearchResult.empty, StrMap.empty, StrMap.get]

/-- C9 (failing input). With the keyword list `["a", "a"]` and a block whose count for "a"
is 1, one merge into the empty result leaves `keywordCounts["a"] = 2`: the block's count is
added once per list entry, not once per pattern. The whole program on the corpus "a" with
one worker reports 2 for both entries, while "a" occurs once. -/
theorem merge_adds_repeated_keyword_twice :
    (mergeBlock (BlockResult.single (bytes "a") 1 7 9) [bytes "a", bytes "a"]
        SearchResult.empty).keywordCounts.get (bytes "a") = 2 ∧
    SearchResult.empty.keywordCounts.get (bytes "a") + 1 = 1 ∧
    mainReport (bytes "a") [bytes "a", bytes "a"] 1 (fun _ _ => 0)
      = .ok [(bytes "a", 2, 0), (bytes "a", 2, 0)] ∧
    occurrences (bytes "a") (bytes "a") = 1 := by
  decide

/-- C10 (counterexample). Two blocks for the one keyword "a", with timestamps
`(st, et) = (0, 0)` and `(5, -3)`, merged into the empty result: the final start time is 5
although the minimum of the start timestamps is 0, and the final end time is -3 although
the maximum of the end timestamps is 0. -/
theorem zero_timestamp_is_overwritten :
    (mergeAll [bytes "a"]
      [BlockResult.single (bytes "a") 1 0 0, BlockResult.single (bytes "a") 1 5 (-3)]
      SearchResult.empty).start_time.get (bytes "a") = 5 ∧
    ¬ IsMinOf 5 [0, 5] ∧
    (mergeAll [bytes "a"]
      [BlockResult.single (bytes "a") 1 0 0, BlockResult.single (bytes "a") 1 5 (-3)]
      SearchResult.empty).end_time.get (bytes "a") = -3 ∧
    ¬ IsMaxOf (-3) [0, -3] := by
  decide

/-- C10 (amended). For every non-empty sequence of block results merged one after another
into an initially empty `SearchResult`, and every pattern `p` of the keyword list, provided
no block's start or end timestamp for `p` is 0: the final `start_time[p]` is the minimum of
the blocks' start timestamps for `p` and the final `end_time[p]` is the maximum of the
blocks' end timestamps for `p`. -/
theorem merge_times_min_max (keywords : List (List Byte)) (bs : List BlockResult)
    (p : List Byte) (hbs : bs ≠ []) (hp : p ∈ keywords)
    (hs : ∀ b ∈ bs, b.st.get p ≠ 0) (he : ∀ b ∈ bs, b.et.get p ≠ 0) :
    IsMinOf ((mergeAll keywords bs SearchResult.empty).start_time.get p)
      (bs.map (fun b => b.st.get p)) ∧
    IsMaxOf ((mergeAll keywords bs SearchResult.empty).end_time.get p)
      (bs.map (fun b => b.et.get p)) := by
  cases bs with
  | nil => exact absurd rfl hbs
  | cons b rest =>
    constructor
    · have hb : b.st.get p ≠ 0 := hs b (List.mem_cons_self _ _)
      have hX : (mergeBlock b keywords SearchResult.empty).start_time.get p = b.st.get p := by
        rw [mergeBlock_start, if_pos hp, if_pos (empty_get p).2.1]
      have h := mergeAll_start_of_ne_zero keywords p hp rest
        (mergeBlock b keywords SearchResult.empty) (by rw [hX]; exact hb)
        (fun b1 hb1 => hs b1 (List.mem_cons_of_mem _ hb1))
      rw [hX] at h
      exact h
    · have hb : b.et.get p ≠ 0 := he b (List.mem_cons_self _ _)
      have hX : (mergeBlock b keywords SearchResult.empty).end_time.get p = b.et.get p := by
        rw [mergeBlock_end, if_pos hp, if_pos (empty_get p).2.2]
      have h := mergeAll_end_of_ne_zero keywords p hp rest
        (mergeBlock b keywords SearchResult.empty) (by rw [hX]; exact hb)
        (fun b1 hb1 => he b1 (List.mem_cons_of_mem _ hb1))
      rw [hX] at h
      exact h

/-- Witness for the amended C10: two blocks with start timestamps 5 and 3 and end
timestamps 9 and 12 give start time 3 and end time 12. -/
theorem merge_times_min_max_witness :
    ([BlockResult.single (bytes "a") 1 5 9, BlockResult.single (bytes "a") 2 3 12] ≠ []) ∧
    (bytes "a" ∈ [bytes "a"]) ∧
    (∀ b ∈ [BlockResult.single (bytes "a") 1 5 9, BlockResult.single (bytes "a") 2 3 12],
        b.st.get (bytes "a") ≠ 0) ∧
    (∀ b ∈ [BlockResult.single (bytes "a") 1 5 9, BlockResult.single (bytes "a") 2 3 12],
        b.et.get (bytes "a") ≠ 0) ∧
    IsMinOf ((mergeAll [bytes "a"]
        [BlockResult.single (bytes "a") 1 5 9, BlockResult.single (bytes "a") 2 3 12]
        SearchResult.empty).start_time.get (bytes "a"))
      ([BlockResult.single (bytes "a") 1 5 9, BlockResult.single (bytes "a") 2 3 12].map
        (fun b => b.st.get (bytes "a"))) ∧
    IsMaxOf ((mergeAll [bytes "a"]
        [BlockResult.single (bytes "a") 1 5 9, BlockResult.single (bytes "a") 2 3 12]
        SearchResult.empty).end_time.get (bytes "a"))
      ([BlockResult.single (bytes "a") 1 5 9, BlockResult.single (bytes "a") 2 3 12].map
        (fun b => b.et.get (bytes "a"))) :=
  ⟨by simp, by simp, by decide, by decide,
    merge_times_min_max [bytes "a"]
      [BlockResult.single (bytes "a") 1 5 9, BlockResult.single (bytes "a") 2 3 12]
      (bytes "a") (by simp) (by simp) (by decide) (by decide)⟩

/-! ## The worker and the single-worker run -/

theorem kmpsearch_slice (data P : List Byte) (start stop : Nat) (hP : P ≠ [])
    (hstop : stop ≤ data.length) :
    kmpsearch (data.drop start) (stop - start) P
      = .ok (occurrences (slice data start stop) P) := by
  apply kmpsearch_spec _ _ _ hP
  simp [List.length_drop]; omega

theorem slice_all (T : List Byte) : slice T 0 T.length = T := by
  simp [slice]

theorem scanBlock_spec (data : List Byte) (start stop : Nat) (clock : Nat → Int)
    (hstop : stop ≤ data.length) :
    ∀ (keywords : List (List Byte)) (tick : Nat) (b : BlockResult),
      (∀ k ∈ keywords, k ≠ []) →
      ∃ b1, scanBlock data start stop clock keywords tick b = .ok b1 ∧
        ∀ p, b1.blockcounts.get p
          = if p ∈ keywords then (occurrences (slice data start stop) p : Int)
            else b.blockcounts.get p := by
  intro keywords
  induction keywords with
  | nil =>
    intro tick b _
    exact ⟨b, rfl, fun p => by simp⟩
  | cons k rest ih =>
    intro tick b hne
    have hk : k ≠ [] := hne k (List.mem_cons_self _ _)
    obtain ⟨b1, e1, e2⟩ := ih (tick + 2)
      { blockcounts := b.blockcounts.set k (occurrences (slice data start stop) k : Int)
        st := b.st.set k (toInt32 (clock tick))
        et := b.et.set k (toInt32 (clock (tick + 1))) }
      (fun k1 hk1 => hne k1 (List.mem_cons_of_mem _ hk1))
    refine ⟨b1, ?_, ?_⟩
    · simp only [scanBlock, kmpsearch_slice data k start stop hk hstop]
      exact e1
    · intro p
      rw [e2 p]
      by_cases hpr : p ∈ rest
      · simp [hpr]
      · by_cases hpk : p = k
        · subst hpk
          simp [hpr, StrMap.get_set]
        · simp [hpr, hpk, StrMap.get_set]

theorem mainBlocks_one (size ov : Nat) : mainBlocks size 1 ov = [(0, size)] := by
  simp [mainBlocks_eq, List.range_succ, blockBounds]

/-! ## Counting over the ranges of `main` -/

theorem rangeCounts_spec (T P : List Byte) (hP : P ≠ []) :
    ∀ blocks : List (Nat × Nat), (∀ r ∈ blocks, r.2 ≤ T.length) →
      rangeCounts T P blocks
        = .ok (blocks.map (fun r => occurrences (slice T r.1 r.2) P)) := by
  intro blocks
  induction blocks with
  | nil => intro _; rfl
  | cons r rest ih =>
    intro h
    obtain ⟨a, e⟩ := r
    have he : e ≤ T.length := h (a, e) (List.mem_cons_self _ _)
    simp only [rangeCounts, kmpsearch_slice T P a e hP he,
      ih (fun r hr => h r (List.mem_cons_of_mem _ hr)), List.map_cons]

theorem occurrence_in_some_block (N n ov m s : Nat) (hn : 1 ≤ n) (hm : m - 1 ≤ ov)
    (hs : s + m ≤ N) :
    ∃ i, i < n ∧ (blockBounds N n ov i).1 ≤ s ∧ s + m ≤ (blockBounds N n ov i).2 := by
  by_cases hc : N / n = 0
  · refine ⟨n - 1, by omega, ?_, ?_⟩ <;> simp [blockBounds, hc, hs]
  · have hcpos : 0 < N / n := Nat.pos_of_ne_zero hc
    have h1 : s / (N / n) * (N / n) ≤ s := Nat.div_mul_le_self _ _
    have h2 : s < (N / n) * (s / (N / n) + 1) := Nat.lt_mul_div_succ s hcpos
    by_cases hlast : s / (N / n) < n - 1
    · refine ⟨s / (N / n), by omega, ?_, ?_⟩
      · simpa [blockBounds] using h1
      · have hne : s / (N / n) ≠ n - 1 := by omega
        simp only [blockBounds, if_neg hne]
        rw [Nat.mul_comm] at h2
        omega
    · refine ⟨n - 1, by omega, ?_, ?_⟩
      · have h3 : (n - 1) * (N / n) ≤ s / (N / n) * (N / n) :=
          Nat.mul_le_mul_right _ (by omega)
        simpa [blockBounds] using le_trans h3 h1
      · simp [blockBounds, hs]

/-- C3 (failing input). A corpus of 100 bytes "a", two workers and the pattern "a": both
ranges `[0, 100)` and `[50, 100)` lie inside the corpus and `len(P) - 1 = 0 ≤ 50`; the
per-range counts are 100 and 50, the program accumulates and reports 150, and `kmpsearch`
on the whole buffer returns 100. The 50 occurrences inside the shared bytes are counted by
both workers. -/
theorem overlap_counted_twice :
    mainBlocks 100 2 overlapsize = [(0, 100), (50, 100)] ∧
    rangeCounts (List.replicate 100 97) (bytes "a") (mainBlocks 100 2 overlapsize)
      = .ok [100, 50] ∧
    mainReport (List.replicate 100 97) [bytes "a"] 2 (fun _ _ => 0)
      = .ok [(bytes "a", 150, 0)] ∧
    kmpsearch (List.replicate 100 97) 100 (bytes "a") = .ok 100 := by
  decide

/-! ## Order of the merges -/

theorem mergeBlock_congr (b : BlockResult) (keywords : List (List Byte))
    (r1 r2 : SearchResult) (h : SameResult r1 r2) :
    SameResult (mergeBlock b keywords r1) (mergeBlock b keywords r2) := by
  intro p
  obtain ⟨h1, h2, h3⟩ := h p
  rw [mergeBlock_counts, mergeBlock_counts, mergeBlock_start, mergeBlock_start,
    mergeBlock_end, mergeBlock_end, h1, h2, h3]
  exact ⟨rfl, rfl, rfl⟩

theorem mergeAll_congr (keywords : List (List Byte)) :
    ∀ (bs : List BlockResult) (r1 r2 : SearchResult), SameResult r1 r2 →
      SameResult (mergeAll keywords bs r1) (mergeAll keywords bs r2) := by
  intro bs
  induction bs with
  | nil => intro r1 r2 h; exact h
  | cons b rest ih =>
    intro r1 r2 h
    exact ih _ _ (mergeBlock_congr b keywords r1 r2 h)

theorem mergeBlock_swap (g : SearchResult) (keywords : List (List Byte))
    (b1 b2 : BlockResult) (h1 : NonzeroTimes keywords b1) (h2 : NonzeroTimes keywords b2) :
    SameResult (mergeBlock b2 keywords (mergeBlock b1 keywords g))
      (mergeBlock b1 keywords (mergeBlock b2 keywords g)) := by
  intro p
  refine ⟨?_, ?_, ?_⟩
  · simp only [mergeBlock_counts]; ring
  · simp only [mergeBlock_start]
    by_cases hp : p ∈ keywords
    · have a1 := (h1 p hp).1
      have a2 := (h2 p hp).1
      simp only [hp, if_true]
      split_ifs <;> omega
    · simp [hp]
  · simp only [mergeBlock_end]
    by_cases hp : p ∈ keywords
    · have a1 := (h1 p hp).2
      have a2 := (h2 p hp).2
      simp only [hp, if_true]
      split_ifs <;> omega
    · simp [hp]

theorem mergeAll_perm (keywords : List (List Byte)) (bs1 bs2 : List BlockResult)
    (hperm : bs1.Perm bs2) :
    (∀ b ∈ bs1, NonzeroTimes keywords b) →
      ∀ g, SameResult (mergeAll keywords bs1 g) (mergeAll keywords bs2 g) := by
  induction hperm with
  | nil => intro _ g p; exact ⟨rfl, rfl, rfl⟩
  | cons b _ ih =>
    intro h g
    exact ih (fun b1 hb1 => h b1 (List.mem_cons_of_mem _ hb1)) (mergeBlock b keywords g)
  | swap x y l =>
    intro h g
    apply mergeAll_congr keywords l
    apply mergeBlock_swap
    · exact h y (List.mem_cons_self _ _)
    · exact h x (List.mem_cons_of_mem _ (List.mem_cons_self _ _))
  | trans hp1 _ ih1 ih2 =>
    intro h g p
    have e1 := ih1 h g p
    have e2 := ih2 (fun b hb => h b (hp1.mem_iff.mpr hb)) g p
    exact ⟨e1.1.trans e2.1, e1.2.1.trans e2.2.1, e1.2.2.trans e2.2.2⟩

/-- C11 (counterexample). Merging the blocks with start timestamps 0 and 5 for "a" into the
empty result gives start time 5 in one order and 0 in the other; with end timestamps 0
and -3 the end time is -3 in one order and 0 in the other. -/
theorem merge_order_matters_at_zero :
    (mergeBlock (BlockResult.single (bytes "a") 1 5 (-3)) [bytes "a"]
      (mergeBlock (BlockResult.single (bytes "a") 1 0 0) [bytes "a"]
        SearchResult.empty)).start_time.get (bytes "a") = 5 ∧
    (mergeBlock (BlockResult.single (bytes "a") 1 0 0) [bytes "a"]
      (mergeBlock (BlockResult.single (bytes "a") 1 5 (-3)) [bytes "a"]
        SearchResult.empty)).start_time.get (bytes "a") = 0 ∧
    (mergeBlock (BlockResult.single (bytes "a") 1 5 (-3)) [bytes "a"]
      (mergeBlock (BlockResult.single (bytes "a") 1 0 0) [bytes "a"]
        SearchResult.empty)).end_time.get (bytes "a") = -3 ∧
    (mergeBlock (BlockResult.single (bytes "a") 1 0 0) [bytes "a"]
      (mergeBlock (BlockResult.single (bytes "a") 1 5 (-3)) [bytes "a"]
        SearchResult.empty)).end_time.get (bytes "a") = 0 := by
  decide

/-- C11 (amended). For every global `SearchResult` `g`, every keyword list and every two
block results `b1` and `b2` over that list: merging `b1` then `b2` into `g` yields the same
`keywordCounts` as merging `b2` then `b1`; if moreover no timestamp of `b1` or `b2` for a
listed pattern is 0, it yields the same `start_time` and `end_time` too; and every
permutation of a list of block results without such zero timestamps yields the same final
`SearchResult`. -/
theorem merge_order_independent (g : SearchResult) (keywords : List (List Byte))
    (b1 b2 : BlockResult) :
    (∀ p, (mergeBlock b2 keywords (mergeBlock b1 keywords g)).keywordCounts.get p
        = (mergeBlock b1 keywords (mergeBlock b2 keywords g)).keywordCounts.get p) ∧
    (NonzeroTimes keywords b1 → NonzeroTimes keywords b2 →
      SameResult (mergeBlock b2 keywords (mergeBlock b1 keywords g))
        (mergeBlock b1 keywords (mergeBlock b2 keywords g))) ∧
    ∀ bs1 bs2 : List BlockResult, bs1.Perm bs2 →
      (∀ b ∈ bs1, NonzeroTimes keywords b) →
      SameResult (mergeAll keywords bs1 g) (mergeAll keywords bs2 g) := by
  refine ⟨?_, mergeBlock_swap g keywords b1 b2,
    fun bs1 bs2 hperm h => mergeAll_perm keywords bs1 bs2 hperm h g⟩
  intro p
  simp only [mergeBlock_counts]
  ring

/-- Witness for the amended C11: two blocks for "a" with timestamps `(5, 9)` and `(3, 12)`
merged into the empty result in both orders. -/
theorem merge_order_independent_witness :
    NonzeroTimes [bytes "a"] (BlockResult.single (bytes "a") 1 5 9) ∧
    NonzeroTimes [bytes "a"] (BlockResult.single (bytes "a") 2 3 12) ∧
    SameResult
      (mergeBlock (BlockResult.single (bytes "a") 2 3 12) [bytes "a"]
        (mergeBlock (BlockResult.single (bytes "a") 1 5 9) [bytes "a"] SearchResult.empty))
      (mergeBlock (BlockResult.single (bytes "a") 1 5 9) [bytes "a"]
        (mergeBlock (BlockResult.single (bytes "a") 2 3 12) [bytes "a"] SearchResult.empty)) :=
  ⟨by decide, by decide,
    (merge_order_independent SearchResult.empty [bytes "a"]
      (BlockResult.single (bytes "a") 1 5 9) (BlockResult.single (bytes "a") 2 3 12)).2.1
      (by decide) (by decide)⟩

/-! ## Coverage of the corpus by the ranges -/

/-- C16. For every `total_length`, every `worker_count ≥ 1` and every overlap, the ranges
computed in `main` cover the corpus: every offset `k < total_length` belongs to at least
one range, the first range starts at 0, the last ends at `total_length`, and each range
ends no earlier than the next one starts. -/
theorem blocks_cover (total_length worker_count overlap : Nat) (hw : 1 ≤ worker_count) :
    (∀ k, k < total_length →
      ∃ r ∈ mainBlocks total_length worker_count overlap, r.1 ≤ k ∧ k < r.2) ∧
    ((mainBlocks total_length worker_count overlap).head?.map Prod.fst = some 0) ∧
    ((mainBlocks total_length worker_count overlap).getLast?.map Prod.snd
      = some total_length) ∧
    (∀ i r1 r2, (mainBlocks total_length worker_count overlap)[i]? = some r1 →
      (mainBlocks total_length worker_count overlap)[i + 1]? = some r2 → r2.1 ≤ r1.2) := by
  obtain ⟨n, rfl⟩ : ∃ n, worker_count = n + 1 := ⟨worker_count - 1, by omega⟩
  refine ⟨?_, ?_, ?_, ?_⟩
  · intro k hk
    obtain ⟨i, hi, h1, h2⟩ :=
      occurrence_in_some_block total_length (n + 1) overlap 1 k hw (by omega) (by omega)
    refine ⟨blockBounds total_length (n + 1) overlap i, ?_, h1, by omega⟩
    rw [mainBlocks_eq]
    exact List.mem_map.mpr ⟨i, List.mem_range.mpr hi, rfl⟩
  · rw [mainBlocks_eq, List.range_succ_eq_map]
    simp [blockBounds]
  · rw [mainBlocks_eq, List.range_succ]
    simp [blockBounds]
  · intro i r1 r2 e1 e2
    have hi : i + 1 < n + 1 := by
      by_contra hcon
      rw [mainBlocks_eq, List.getElem?_eq_none (by simp; omega)] at e2
      cases e2
    rw [mainBlocks_getElem? _ _ _ _ (by omega)] at e1 e2
    cases e1
    cases e2
    have hne : i ≠ n + 1 - 1 := by omega
    simp only [blockBounds, if_neg hne]
    omega

/-- Witness for C16 at `total_length = 1000`, `worker_count = 4`, `overlap = 50`. -/
theorem blocks_cover_witness :
    1 ≤ 4 ∧
    (∀ k, k < 1000 → ∃ r ∈ mainBlocks 1000 4 50, r.1 ≤ k ∧ k < r.2) ∧
    ((mainBlocks 1000 4 50).head?.map Prod.fst = some 0) ∧
    ((mainBlocks 1000 4 50).getLast?.map Prod.snd = some 1000) ∧
    (∀ i r1 r2, (mainBlocks 1000 4 50)[i]? = some r1 →
      (mainBlocks 1000 4 50)[i + 1]? = some r2 → r2.1 ≤ r1.2) :=
  ⟨by decide, blocks_cover 1000 4 50 (by decide)⟩

/-- C17. With the fixed overlap of 50 there are a corpus, a worker count and a pattern
longer than 51 bytes for which an occurrence straddling a block boundary lies wholly
inside no range and the per-range counts add up to less than the number of occurrences:
the corpus is 51 bytes "b", 52 bytes "a" and one byte "b" (104 bytes), the pattern is 52
bytes "a", and there are two workers with ranges `[0, 102)` and `[52, 104)`. -/
theorem undercount_with_long_pattern :
    ∃ (T : List Byte) (n : Nat) (P : List Byte),
      2 ≤ n ∧
      (∀ r ∈ mainBlocks T.length n overlapsize, r.1 ≤ r.2 ∧ r.2 ≤ T.length) ∧
      overlapsize < P.length - 1 ∧
      (∃ s, occursAt T P s ∧
        (∃ r ∈ mainBlocks T.length n overlapsize, s < r.1 ∧ r.1 < s + P.length) ∧
        ∀ r ∈ mainBlocks T.length n overlapsize, ¬ (r.1 ≤ s ∧ s + P.length ≤ r.2)) ∧
      ∃ counts, rangeCounts T P (mainBlocks T.length n overlapsize) = .ok counts ∧
        counts.sum < occurrences T P := by
  refine ⟨List.replicate 51 98 ++ List.replicate 52 97 ++ [98], 2, List.replicate 52 97,
    by decide, by decide, by decide, ⟨51, by decide, by decide, by decide⟩,
    ⟨[0, 0], by decide, by decide⟩⟩

/-! ## Input handling of `main` -/

/-- C15 (failing input). The corpus "abc" is mapped, `keyword.txt` cannot be read and there
are two hardware threads: `main` does not terminate early, it creates both worker threads
(ranges `[0, 51)` and `[1, 3)`) and returns with an empty report. When the corpus cannot
be mapped `main` does exit before creating a thread. -/
theorem unreadable_keywords_still_spawn :
    mainProgram (some (bytes "abc")) none 2 (fun _ _ => 0)
      = .ok (.finished [(0, 51), (1, 3)] []) ∧
    mainProgram none none 2 (fun _ _ => 0) = .ok .exitedEarly ∧
    mainProgram none (some [bytes "abc"]) 2 (fun _ _ => 0) = .ok .exitedEarly := by
  decide

/-! ## Reported duration -/

theorem toInt32_sub (s e : Int) (h0 : s ≤ e) (h1 : e - s < 2 ^ 31) :
    toInt32 (toInt32 e - toInt32 s) = e - s := by
  unfold toInt32
  norm_num at h1 ⊢
  omega

theorem scanBlock_times (data : List Byte) (start stop : Nat) (clock : Nat → Int) :
    ∀ (keywords : List (List Byte)) (tick : Nat) (b b1 : BlockResult),
      scanBlock data start stop clock keywords tick b = .ok b1 →
      ∀ p, (p ∈ keywords → ∃ i, i < keywords.length ∧ keywords[i]? = some p ∧
              b1.st.get p = toInt32 (clock (tick + 2 * i)) ∧
              b1.et.get p = toInt32 (clock (tick + 2 * i + 1))) ∧
           (p ∉ keywords → b1.st.get p = b.st.get p ∧ b1.et.get p = b.et.get p) := by
  intro keywords
  induction keywords with
  | nil =>
    intro tick b b1 h p
    simp only [scanBlock] at h
    cases h
    simp
  | cons k rest ih =>
    intro tick b b1 h p
    simp only [scanBlock] at h
    cases hk : kmpsearch (List.drop start data) (stop - start) k with
    | error e => rw [hk] at h; cases h
    | ok n =>
      rw [hk] at h
      obtain ⟨ih1, ih2⟩ := ih (tick + 2) _ b1 h p
      by_cases hpr : p ∈ rest
      · refine ⟨fun _ => ?_, fun hn => absurd (List.mem_cons_of_mem _ hpr) hn⟩
        obtain ⟨i, hi, e1, e2, e3⟩ := ih1 hpr
        refine ⟨i + 1, by simp; omega, by simpa using e1, ?_, ?_⟩
        · rw [e2]; congr 2; omega
        · rw [e3]; congr 2; omega
      · obtain ⟨f1, f2⟩ := ih2 hpr
        constructor
        · intro hp
          have hpk : p = k := (List.mem_cons.mp hp).resolve_right hpr
          subst hpk
          refine ⟨0, by simp, by simp, ?_, ?_⟩
          · rw [f1]; simp [StrMap.get_set]
          · rw [f2]; simp [StrMap.get_set]
        · intro hp
          have hpk : p ≠ k := fun h => hp (h ▸ List.mem_cons_self _ _)
          rw [f1, f2]
          simp [StrMap.get_set, hpk]

/-- C14 (counterexample). One worker, corpus "abcabcabcabc", keyword "abc", clock reading
2147483647 before the scan and 4294967296 after it: the later reading is not earlier, the
stored 32-bit values are 2147483647 and 0, and the reported duration is -2147483647. -/
theorem duration_negative_after_narrowing :
    clockOf 2147483647 4294967296 0 0 ≤ clockOf 2147483647 4294967296 0 1 ∧
    mainReport (bytes "abcabcabcabc") [bytes "abc"] 1 (clockOf 2147483647 4294967296)
      = .ok [(bytes "abc", 4, -2147483647)] := by
  decide

/-- C14 (amended). With a single worker, for every pattern of a list of non-empty patterns
the reported duration `end_time[p] - start_time[p]` is the elapsed time of one scan of `p`
and so is `≥ 0`, whenever each clock reading taken after a scan is not earlier than the
reading taken before it and less than `2^31` milliseconds later; the readings are stored
in the 32-bit `int` fields (narrowing modulo `2^32`) and subtracted in 32-bit
arithmetic. -/
theorem single_worker_duration (T : List Byte) (keywords : List (List Byte))
    (clock : Nat → Nat → Int) (hne : ∀ k ∈ keywords, k ≠ [])
    (hclock : ∀ i, i < keywords.length →
      clock 0 (2 * i) ≤ clock 0 (2 * i + 1) ∧ clock 0 (2 * i + 1) - clock 0 (2 * i) < 2 ^ 31) :
    ∃ r, mainResult T keywords 1 clock = .ok r ∧
      ∀ p ∈ keywords, 0 ≤ duration r p ∧
        ∃ i, i < keywords.length ∧ keywords[i]? = some p ∧
          duration r p = clock 0 (2 * i + 1) - clock 0 (2 * i) := by
  obtain ⟨b, e1, _⟩ := scanBlock_spec T 0 T.length (clock 0) (le_refl _) keywords 0
    BlockResult.empty hne
  refine ⟨mergeBlock b keywords SearchResult.empty, ?_, ?_⟩
  · simp [mainResult, mainBlocks_one, runThreads, searchInBlock, e1]
  · intro p hp
    obtain ⟨i, hi, k1, k2, k3⟩ := (scanBlock_times T 0 T.length (clock 0) keywords 0
      BlockResult.empty b e1 p).1 hp
    obtain ⟨c1, c2⟩ := hclock i hi
    have hd : duration (mergeBlock b keywords SearchResult.empty) p
        = clock 0 (2 * i + 1) - clock 0 (2 * i) := by
      unfold duration
      rw [mergeBlock_start, mergeBlock_end, if_pos hp, if_pos hp,
        if_pos (empty_get p).2.1, if_pos (empty_get p).2.2, k2, k3]
      simp only [Nat.zero_add]
      exact toInt32_sub _ _ c1 c2
    refine ⟨by rw [hd]; omega, i, hi, k1, hd⟩

/-- Witness for the amended C14: corpus "abcabcabcabc", keyword "abc", readings
1700000000000 and 1700000000007. -/
theorem single_worker_duration_witness :
    (∀ k ∈ [bytes "abc"], k ≠ []) ∧
    (∀ i, i < [bytes "abc"].length →
      clockOf 1700000000000 1700000000007 0 (2 * i)
        ≤ clockOf 1700000000000 1700000000007 0 (2 * i + 1) ∧
      clockOf 1700000000000 1700000000007 0 (2 * i + 1)
        - clockOf 1700000000000 1700000000007 0 (2 * i) < 2 ^ 31) ∧
    ∃ r, mainResult (bytes "abcabcabcabc") [bytes "abc"] 1
        (clockOf 1700000000000 1700000000007) = .ok r ∧
      ∀ p ∈ [bytes "abc"], 0 ≤ duration r p ∧
        ∃ i, i < [bytes "abc"].length ∧ [bytes "abc"][i]? = some p ∧
          duration r p = clockOf 1700000000000 1700000000007 0 (2 * i + 1)
            - clockOf 1700000000000 1700000000007 0 (2 * i) :=
  ⟨by decide, by decide,
    single_worker_duration (bytes "abcabcabcabc") [bytes "abc"]
      (clockOf 1700000000000 1700000000007) (by decide) (by decide)⟩

/-! ## Index bounds and termination of the inner loop -/

theorem tableLe_of_tableOK (P : List Byte) (next : List Nat) (h : TableOK P next) :
    TableLe next :=
  fun k v hk => (h k v hk).1

theorem vecAtPred_lt (next : List Nat) (hb : TableLe next) (j v : Nat)
    (h : vecAtPred next j = .ok v) : v < j := by
  unfold vecAtPred vecAt at h
  split at h
  · cases h
  · split at h
    · rename_i x hx
      cases h
      have := hb _ _ hx
      omega
    · cases h

theorem fallback_le (next : List Nat) (P : List Byte) (c : Byte) (hb : TableLe next) :
    ∀ fuel j j1, fallback next P c fuel j = .ok j1 → j1 ≤ j := by
  intro fuel
  induction fuel with
  | zero => intro j j1 h; simp [fallback] at h
  | succ fuel ih =>
    intro j j1 h
    unfold fallback at h
    split at h
    · split at h
      · cases h
      · split at h
        · split at h
          · cases h
          · rename_i v hv
            have h1 := ih _ _ h
            have h2 := vecAtPred_lt next hb j v hv
            omega
        · cases h; exact le_refl _
    · cases h; exact le_refl _

theorem strAtChecked_eq (P : List Byte) (k : Nat) (h : k < P.length) :
    strAtChecked P k = strAt P k := by
  simp [strAtChecked, strAt, List.getElem?_eq_getElem h]

theorem fallbackChecked_eq (next : List Nat) (P : List Byte) (c : Byte) (hb : TableLe next) :
    ∀ fuel j, j < P.length → fallbackChecked next P c fuel j = fallback next P c fuel j := by
  intro fuel
  induction fuel with
  | zero => intro j _; rfl
  | succ fuel ih =>
    intro j hj
    unfold fallbackChecked fallback
    rw [strAtChecked_eq P j hj]
    split
    · split
      · rfl
      · split
        · split
          · rfl
          · rename_i v hv
            have := vecAtPred_lt next hb j v hv
            exact ih v (by omega)
        · rfl
    · rfl

theorem fallbackWF_eq (next : List Nat) (hb : TableLe next) (P : List Byte) (c : Byte) :
    ∀ fuel j, j < fuel → fallback next P c fuel j = fallbackWF next hb P c j := by
  intro fuel
  induction fuel with
  | zero => intro j h; omega
  | succ fuel ih =>
    intro j hj
    unfold fallback
    rw [fallbackWF]
    split
    · split
      · rfl
      · split
        · split
          · rename_i e he
            split
            · rename_i e1 he1
              rw [he] at he1
              cases he1
              rfl
            · rename_i v1 hv1
              rw [he] at hv1
              cases hv1
          · rename_i v hv
            have := vecAtPred_lt next hb j v hv
            split
            · rename_i e1 he1
              rw [hv] at he1
              cases he1
            · rename_i v1 hv1
              rw [hv] at hv1
              cases hv1
              exact ih v (by omega)
        · rfl
    · rfl

theorem kmpsearch_step (T P : List Byte) (next : List Nat) (hP : P ≠ [])
    (hlen : next.length = P.length) (hT : TableOK P next) (i j : Nat) (hi : i < T.length)
    (hS : KmpState P (T.take i) j) :
    ∃ j1 pj, fallback next P T[i] (j + 1) j = .ok j1 ∧ j1 ≤ j ∧ strAt P j1 = .ok pj ∧
      ((if T[i] = pj then j1 + 1 else j1) = P.length →
        ∃ j3, vecAtPred next (if T[i] = pj then j1 + 1 else j1) = .ok j3 ∧
          KmpState P (T.take (i + 1)) j3) ∧
      ((if T[i] = pj then j1 + 1 else j1) ≠ P.length →
        KmpState P (T.take (i + 1)) (if T[i] = pj then j1 + 1 else j1)) := by
  have hpos : 0 < P.length := List.length_pos.mpr hP
  have htake : T.take (i + 1) = T.take i ++ [T[i]] :=
    take_succ_getElem T i _ (List.getElem?_eq_getElem hi)
  obtain ⟨j1, pj, e1, e2, e3, e4, e5⟩ :=
    step_spec P next (T.take i) T[i] j hT (by have := hS.1; omega) hS
  rw [← htake] at e4 e5
  have hle := fallback_le next P T[i] (tableLe_of_tableOK P next hT) _ _ _ e1
  refine ⟨j1, pj, e1, hle, e2, ?_, ?_⟩
  · intro hfull
    rw [hfull] at e4
    rw [List.take_length] at e4
    have hm1 : P.length - 1 < next.length := by omega
    have hv := hT (P.length - 1) (next[P.length - 1]) (List.getElem?_eq_getElem hm1)
    obtain ⟨v1, v2, v3⟩ := hv
    have hmm : P.length - 1 + 1 = P.length := by omega
    rw [hmm, List.take_length] at v2 v3
    refine ⟨next[P.length - 1], ?_, by omega, v2.trans e4, ?_⟩
    · rw [hfull]
      simp [vecAtPred, vecAt, List.getElem?_eq_getElem hm1, hP]
    · intro k hk hkw
      apply v3 k (by omega)
      have := take_suffix_take P (T.take (i + 1)) k P.length (le_of_lt hk) hkw
        (by rw [List.take_length]; exact e4)
      rwa [List.take_length] at this
  · intro hfull
    exact ⟨by omega, e4, fun k hk hkw => e5 k (le_of_lt hk) hkw⟩

theorem kmpsearch_loopChecked_eq (T P : List Byte) (next : List Nat) (hP : P ≠ [])
    (hlen : next.length = P.length) (hT : TableOK P next) :
    ∀ steps i j count, i + steps ≤ T.length → KmpState P (T.take i) j →
      kmpsearch_loopChecked T P next steps i j count
        = kmpsearch_loop T P next steps i j count := by
  intro steps
  induction steps with
  | zero => intro i j count _ _; rfl
  | succ steps ih =>
    intro i j count hi hS
    have hilt : i < T.length := by omega
    have hjm : j < P.length := hS.1
    obtain ⟨j1, pj, e1, e2, e3, e4, e5⟩ := kmpsearch_step T P next hP hlen hT i j hilt hS
    have hj1 : j1 < P.length := by omega
    have c1 : fallbackChecked next P T[i] (j + 1) j = .ok j1 := by
      rw [fallbackChecked_eq next P T[i] (tableLe_of_tableOK P next hT) _ _ hjm, e1]
    have c2 : strAtChecked P j1 = .ok pj := by rw [strAtChecked_eq P j1 hj1, e3]
    simp only [kmpsearch_loopChecked, kmpsearch_loop, if_pos hjm, bufAt_lt T i hilt, e1, e3,
      c1, c2]
    by_cases hfull : (if T[i] = pj then j1 + 1 else j1) = P.length
    · obtain ⟨j3, f1, f2⟩ := e4 hfull
      rw [if_pos hfull, if_pos hfull, f1]
      exact ih (i + 1) j3 (count + 1) (by omega) f2
    · rw [if_neg hfull, if_neg hfull]
      exact ih (i + 1) _ count (by omega) (e5 hfull)

theorem get_next_loopChecked_eq (P : List Byte) :
    ∀ steps i j next, 1 ≤ i → i + steps = P.length → next.length = i → TableOK P next →
      IsLps P (i - 1) j →
      get_next_loopChecked P steps i j next = get_next_loop P steps i j next := by
  intro steps
  induction steps with
  | zero => intro i j next _ _ _ _ _; rfl
  | succ steps ih =>
    intro i j next hi1 him hlen hT hj
    have hilt : i < P.length := by omega
    have hjm : j < P.length := by have := hj.1; omega
    have hS := lps_to_state P i j hi1 (le_of_lt hilt) hj
    obtain ⟨j1, pj, e1, e2, e3, e4, e5⟩ :=
      step_spec P next ((P.take i).drop 1) P[i] j hT (by have := hj.1; omega) hS
    have hlps := state_to_lps P i _ hi1 hilt e4 e5
    have hle := fallback_le next P P[i] (tableLe_of_tableOK P next hT) _ _ _ e1
    have hj1 : j1 < P.length := by omega
    have c0 : strAtChecked P i = .ok P[i] := by rw [strAtChecked_eq P i hilt, strAt_lt P i hilt]
    have c1 : fallbackChecked next P P[i] (j + 1) j = .ok j1 := by
      rw [fallbackChecked_eq next P P[i] (tableLe_of_tableOK P next hT) _ _ hjm, e1]
    have c2 : strAtChecked P j1 = .ok pj := by rw [strAtChecked_eq P j1 hj1, e2]
    simp only [get_next_loopChecked, get_next_loop, if_pos hjm, strAt_lt P i hilt, e1, e2,
      c0, c1, c2]
    exact ih (i + 1) (if P[i] = pj then j1 + 1 else j1)
      (next ++ [if P[i] = pj then j1 + 1 else j1]) (by omega) (by omega)
      (by simp [hlen]) (tableOK_snoc P next _ hT (by rw [hlen]; exact hlps))
      (by simpa using hlps)

theorem get_nextChecked_eq (P : List Byte) (hP : P ≠ []) : get_nextChecked P = get_next P := by
  have hpos : 0 < P.length := List.length_pos.mpr hP
  apply get_next_loopChecked_eq P (P.length - 1) 1 0 [0] (le_refl _) (by omega) rfl
  · intro t v htv
    cases t with
    | zero =>
      simp at htv; subst htv
      exact ⟨le_refl _, by simp, fun k hk _ => hk⟩
    | succ t => simp at htv
  · exact ⟨le_refl _, by simp, fun k hk _ => hk⟩

theorem kmpsearchChecked_eq (T P : List Byte) (d : Nat) (hP : P ≠ []) (hd : d ≤ T.length) :
    kmpsearchChecked T d P = kmpsearch T d P := by
  obtain ⟨tbl, t1, t2, t3⟩ := get_next_spec P hP
  have hpos : 0 < P.length := List.length_pos.mpr hP
  unfold kmpsearchChecked kmpsearch
  rw [get_nextChecked_eq P hP, t1]
  apply kmpsearch_loopChecked_eq T P tbl hP t2 t3 d 0 0 0 (by omega)
  exact ⟨hpos, by simp, fun k hk hkw => by
    have := hkw.length_le
    simp [List.length_take, hP] at this
    omega⟩

/-- C13. For every non-empty pattern `P` and every byte sequence `T`, `get_next(P)` and
`kmpsearch(T, len(T), P)` run with every index checked (the state `j` below `len(P)` at the
start of each loop iteration, every read `next[j - 1]` with `1 ≤ j ≤ len(next)`, every read
`pattern[j]` with `j < len(P)`, every read `data[i]` inside `T`) return the same table and
the same count as the unchecked functions: no check fails and the scan returns. -/
theorem indices_in_bounds (T P : List Byte) (hP : P ≠ []) :
    ∃ tbl n, get_nextChecked P = .ok tbl ∧ get_next P = .ok tbl ∧
      kmpsearchChecked T T.length P = .ok n ∧ kmpsearch T T.length P = .ok n := by
  obtain ⟨tbl, t1, _, _⟩ := get_next_spec P hP
  have h := kmpsearch_spec T P T.length hP (le_refl _)
  exact ⟨tbl, _, by rw [get_nextChecked_eq P hP, t1], t1,
    by rw [kmpsearchChecked_eq T P T.length hP (le_refl _), h], h⟩

/-- Witness for C13: pattern "aa" and text "aaaa". -/
theorem indices_in_bounds_witness :
    bytes "aa" ≠ [] ∧
    ∃ tbl n, get_nextChecked (bytes "aa") = .ok tbl ∧ get_next (bytes "aa") = .ok tbl ∧
      kmpsearchChecked (bytes "aaaa") (bytes "aaaa").length (bytes "aa") = .ok n ∧
      kmpsearch (bytes "aaaa") (bytes "aaaa").length (bytes "aa") = .ok n :=
  ⟨by decide, indices_in_bounds (bytes "aaaa") (bytes "aa") (by decide)⟩

theorem get_next_loop_prefix (P : List Byte) :
    ∀ steps i j next tbl, get_next_loop P steps i j next = .ok tbl → next <+: tbl := by
  intro steps
  induction steps with
  | zero =>
    intro i j next tbl h
    simp only [get_next_loop] at h
    cases h
    exact List.prefix_refl _
  | succ steps ih =>
    intro i j next tbl h
    unfold get_next_loop at h
    split at h
    · cases h
    · split at h
      · cases h
      · split at h
        · cases h
        · exact (List.prefix_append _ _).trans (ih _ _ _ _ h)

theorem tableLe_of_initial (next tbl : List Nat) (hpre : next <+: tbl) (hb : TableLe tbl) :
    TableLe next := by
  obtain ⟨t, rfl⟩ := hpre
  intro k v hk
  have hlt : k < next.length := by
    by_contra hcon
    rw [List.getElem?_eq_none (by omega)] at hk
    cases hk
  exact hb k v (by rw [List.getElem?_append_left hlt]; exact hk)

/-- C18. For every non-empty pattern `P` and every byte sequence `T`: the table returned by
`get_next(P)` satisfies `next[k] ≤ k`, and so does every table of an earlier iteration
(a prefix of it); with such a table each iteration `j = next[j - 1]` of the inner loop
strictly decreases `j`; the inner loop run on fuel above `j` agrees with the loop defined
by well-founded recursion on `j`; and `get_next(P)` and `kmpsearch(T, len(T), P)`
return. -/
theorem inner_loop_terminates (T P : List Byte) (hP : P ≠ []) :
    ∃ tbl n, get_next P = .ok tbl ∧ kmpsearch T T.length P = .ok n ∧ TableLe tbl ∧
      (∀ steps i j next tbl1, get_next_loop P steps i j next = .ok tbl1 → next <+: tbl1) ∧
      (∀ next, next <+: tbl → ∀ j v, vecAtPred next j = .ok v → v < j) ∧
      (∀ next (hb : TableLe next) c fuel j, j < fuel →
        fallback next P c fuel j = fallbackWF next hb P c j) := by
  obtain ⟨tbl, t1, _, t3⟩ := get_next_spec P hP
  have hb := tableLe_of_tableOK P tbl t3
  exact ⟨tbl, _, t1, kmpsearch_spec T P T.length hP (le_refl _), hb,
    get_next_loop_prefix P,
    fun next hpre j v h => vecAtPred_lt next (tableLe_of_initial next tbl hpre hb) j v h,
    fun next hb1 c fuel j hj => fallbackWF_eq next hb1 P c fuel j hj⟩

/-- Witness for C18: pattern "abab" and text "abababab". -/
theorem inner_loop_terminates_witness :
    bytes "abab" ≠ [] ∧
    ∃ tbl n, get_next (bytes "abab") = .ok tbl ∧
      kmpsearch (bytes "abababab") (bytes "abababab").length (bytes "abab") = .ok n ∧
      TableLe tbl ∧
      (∀ steps i j next tbl1,
        get_next_loop (bytes "abab") steps i j next = .ok tbl1 → next <+: tbl1) ∧
      (∀ next, next <+: tbl → ∀ j v, vecAtPred next j = .ok v → v < j) ∧
      (∀ next (hb : TableLe next) c fuel j, j < fuel →
        fallback next (bytes "abab") c fuel j = fallbackWF next hb (bytes "abab") c j) :=
  ⟨by decide, inner_loop_terminates (bytes "abababab") (bytes "abab") (by decide)⟩

/-! ## The scan in 32-bit arithmetic: no overflow below `2^31` bytes -/

theorem toSizeT_natCast (x : Nat) (h : x < 2 ^ 31) : toSizeT (x : Int) = x := by
  unfold toSizeT
  norm_num at h ⊢
  omega

theorem incWrap_small (x : Nat) (h : (x : Int) + 1 ≤ 2 ^ 31 - 1) :
    incWrap (x : Int) = .ok ((x + 1 : Nat) : Int) := by
  unfold incWrap toInt32
  norm_num at h ⊢
  omega

theorem incTrap_small (x : Nat) (h : (x : Int) + 1 ≤ 2 ^ 31 - 1) :
    incTrap (x : Int) = .ok ((x + 1 : Nat) : Int) := by
  unfold incTrap
  rw [if_pos h]
  simp

theorem kmpsearch_loop32_eq (inc : Int → Except Fault Int)
    (hinc : ∀ x : Nat, (x : Int) + 1 ≤ 2 ^ 31 - 1 → inc (x : Int) = .ok ((x + 1 : Nat) : Int))
    (data : List Byte) (datalen : Nat) (P : List Byte) (next : List Nat) (hb : TableLe next)
    (hlen : datalen < 2 ^ 31) :
    ∀ steps i j count : Nat, i + steps = datalen → j ≤ i → count ≤ i →
      kmpsearch_loop32 inc data datalen P next (steps + 1) i j count
        = (kmpsearch_loop data P next steps i j count).map (fun n : Nat => (n : Int)) := by
  intro steps
  induction steps with
  | zero =>
    intro i j count hi _ _
    have hs : toSizeT (i : Int) = i := toSizeT_natCast i (by omega)
    simp only [kmpsearch_loop32, kmpsearch_loop, hs]
    rw [if_neg (by omega)]
    rfl
  | succ steps ih =>
    intro i j count hi hj hc
    have hs : toSizeT (i : Int) = i := toSizeT_natCast i (by omega)
    have hneg : ¬ ((i : Int) < 0 ∨ (j : Int) < 0) := by omega
    have hinci : inc (i : Int) = .ok ((i + 1 : Nat) : Int) := hinc i (by norm_num at hlen ⊢; omega)
    have hincc : inc (count : Int) = .ok ((count + 1 : Nat) : Int) :=
      hinc count (by norm_num at hlen ⊢; omega)
    unfold kmpsearch_loop32 kmpsearch_loop
    rw [hs, if_pos (by omega), if_neg hneg]
    simp only [Int.toNat_ofNat]
    cases hbuf : bufAt data i with
    | error e => rfl
    | ok c =>
      simp only
      cases hfb : fallback next P c (j + 1) j with
      | error e => rfl
      | ok j1 =>
        simp only
        have hj1 := fallback_le next P c hb _ _ _ hfb
        cases hstr : strAt P j1 with
        | error e => rfl
        | ok pj =>
          simp only
          have hincj : inc (j1 : Int) = .ok ((j1 + 1 : Nat) : Int) :=
            hinc j1 (by norm_num at hlen ⊢; omega)
          have hj2 : (if c = pj then inc (j1 : Int) else .ok (j1 : Int))
              = .ok (((if c = pj then j1 + 1 else j1) : Nat) : Int) := by
            split
            · exact hincj
            · rfl
          rw [hj2]
          simp only [hinci]
          have hj2le : (if c = pj then j1 + 1 else j1) ≤ i + 1 := by split <;> omega
          have hs2 : toSizeT (((if c = pj then j1 + 1 else j1) : Nat) : Int)
              = (if c = pj then j1 + 1 else j1) := toSizeT_natCast _ (by omega)
          rw [hs2]
          by_cases hfull : (if c = pj then j1 + 1 else j1) = P.length
          · rw [if_pos hfull, if_pos hfull]
            simp only [hincc]
            rw [if_neg (by omega)]
            simp only [Int.toNat_ofNat]
            cases hvec : vecAtPred next (if c = pj then j1 + 1 else j1) with
            | error e => rfl
            | ok j3 =>
              simp only
              have hj3 := vecAtPred_lt next hb _ _ hvec
              exact ih (i + 1) j3 (count + 1) (by omega) (by omega) (by omega)
          · rw [if_neg hfull, if_neg hfull]
            exact ih (i + 1) _ count (by omega) hj2le (by omega)

theorem kmpsearch_loop_le (data P : List Byte) (next : List Nat) :
    ∀ steps i j count n, kmpsearch_loop data P next steps i j count = .ok n →
      n ≤ count + steps := by
  intro steps
  induction steps with
  | zero =>
    intro i j count n h
    simp only [kmpsearch_loop] at h
    cases h
    omega
  | succ steps ih =>
    intro i j count n h
    unfold kmpsearch_loop at h
    simp only at h
    repeat' split at h
    all_goals first
      | cases h
      | exact le_trans (ih _ _ _ _ h) (by omega)

/-- C19. For every slice of length `datalen < 2^31` and every non-empty pattern,
`kmpsearch` with its `int` variables `i`, `j` and `count` incremented in 32-bit arithmetic
returns the value computed with unbounded integers, whether an increment wraps around or
faults when its result would exceed `2^31 - 1`: no increment overflows, and the count is at
most `datalen`. -/
theorem kmpsearch_no_overflow (data P : List Byte) (datalen : Nat) (hP : P ≠ [])
    (hlen : datalen < 2 ^ 31) (hd : datalen ≤ data.length) :
    ∃ n : Nat, kmpsearch data datalen P = .ok n ∧ n ≤ datalen ∧
      kmpsearch32 incTrap data datalen P = .ok (n : Int) ∧
      kmpsearch32 incWrap data datalen P = .ok (n : Int) := by
  obtain ⟨tbl, t1, _, t3⟩ := get_next_spec P hP
  have hb := tableLe_of_tableOK P tbl t3
  have h := kmpsearch_spec data P datalen hP hd
  have hloop : kmpsearch_loop data P tbl datalen 0 0 0
      = .ok (occurrences (data.take datalen) P) := by
    have h1 := h
    simp only [kmpsearch, t1] at h1
    exact h1
  have hle := kmpsearch_loop_le data P tbl datalen 0 0 0 _ hloop
  refine ⟨occurrences (data.take datalen) P, h, by omega, ?_, ?_⟩
  · have e := kmpsearch_loop32_eq incTrap incTrap_small data datalen P tbl hb hlen
      datalen 0 0 0 (by omega) (le_refl _) (le_refl _)
    simp only [kmpsearch32, t1]
    rw [hloop] at e
    exact e
  · have e := kmpsearch_loop32_eq incWrap incWrap_small data datalen P tbl hb hlen
      datalen 0 0 0 (by omega) (le_refl _) (le_refl _)
    simp only [kmpsearch32, t1]
    rw [hloop] at e
    exact e

/-- Witness for C19: the slice "aaaa" and the pattern "aa". -/
theorem kmpsearch_no_overflow_witness :
    bytes "aa" ≠ [] ∧ 4 < 2 ^ 31 ∧ 4 ≤ (bytes "aaaa").length ∧
    ∃ n : Nat, kmpsearch (bytes "aaaa") 4 (bytes "aa") = .ok n ∧ n ≤ 4 ∧
      kmpsearch32 incTrap (bytes "aaaa") 4 (bytes "aa") = .ok (n : Int) ∧
      kmpsearch32 incWrap (bytes "aaaa") 4 (bytes "aa") = .ok (n : Int) :=
  ⟨by decide, by decide, by decide,
    kmpsearch_no_overflow (bytes "aaaa") (bytes "aa") 4 (by decide) (by decide) (by decide)⟩


/-! ## The 32-bit scan on slices of any length -/

theorem occurrences_le_length (D P : List Byte) (d : Nat) (hP : P ≠ []) (hd : d ≤ D.length) :
    occurrences (D.take d) P ≤ d := by
  obtain ⟨tbl, t1, _, _⟩ := get_next_spec P hP
  have h := kmpsearch_spec D P d hP hd
  simp only [kmpsearch, t1] at h
  have := kmpsearch_loop_le D P tbl d 0 0 0 _ h
  omega

end StringSearch
